import Mathlib

/-!
Verification of the core evolutionary engine of the Operon symbolic-regression
library against its natural-language specification.

The C++ sources are shallowly embedded: machine scalars (`Operon::Scalar`,
`double`) become `ℚ` (the specification's properties are about the exact
arithmetic structure of the computations, not rounding), `size_t` arithmetic
is `Nat` with an explicit wrap modulo `2^64` where overflow can matter,
fallible operations return `Except`/`Option`, and loops become fuel-indexed or
well-founded recursions.  Each definition is translated from the
corresponding function in the repository sources (`src/core/dataset.cpp`,
`src/core/tree.cpp`, `src/operators/selector/proportional.cpp`,
`src/operators/creator/ptc2.cpp`, `src/operators/creator/balanced.cpp`,
`src/operators/non_dominated_sorter/hierarchical_sort.cpp`); components whose
implementation files are not part of the sources (node accessors, the
primitive-set sampler, the Pareto comparison) are modelled from the
specification and marked as such in their doc comments.
-/

namespace Operon


/-! ## Machine arithmetic -/

/-- Subtraction of `size_t` values (64-bit unsigned wrap-around):
`usub64 a b` is `a - b` computed modulo `2^64`, for `a < 2^64`. -/
def usub64 (a b : Nat) : Nat := (a + (2 ^ 64 - b % 2 ^ 64)) % 2 ^ 64

/-! ## Dataset (`src/core/dataset.cpp`)

A `Dataset` is a column-major numeric matrix plus a vector of `Variable`
records sorted by hash.  The dataset either owns its storage or borrows an
external matrix (view mode, `isView = true`); the C++ `values` matrix is
modelled as a list of columns of rationals. -/

/-- A variable record `{Name, Hash, Index}` bound to one dataset column. -/
structure Variable where
  Name : String
  Hash : Nat
  Index : Nat
deriving Repr, DecidableEq

/-- Half-open row range `[start, start+size)`. -/
structure Range where
  start : Nat
  size : Nat
deriving Repr, DecidableEq

/-- Errors raised by the mutating dataset operations: the view-not-mutable
`std::runtime_error` thrown when `IsView()` holds, and the `EXPECT` range
assertion. -/
inductive DatasetError where
  | viewNotMutable
  | invalidRange
deriving Repr, DecidableEq

/-- A dataset: variables, column-major values, and the ownership flag
(`IsView()` in the C++ code: the data is borrowed, not owned). -/
structure Dataset where
  vars : List Variable
  values : List (List ℚ)
  isView : Bool
deriving Repr, DecidableEq

/-- Number of rows (`values.rows()`). -/
def Dataset.Rows (ds : Dataset) : Nat := (ds.values.headD []).length

/-- Core of `Dataset::GetVariable(Operon::Hash)` (dataset.cpp:172-176):
`std::partition_point` over the hash-sorted variable vector, then a final
equality check.  On a vector partitioned by `v.Hash < hashValue` (the sorted
invariant), `partition_point` returns the first element whose hash is not
below `hashValue`, which is `dropWhile`. -/
def lookupHash (vs : List Variable) (hashValue : Nat) : Option Variable :=
  match vs.dropWhile (fun v => v.Hash < hashValue) with
  | [] => none
  | v :: _ => if v.Hash = hashValue then some v else none

/-- From `Dataset::GetVariable(Operon::Hash)` (dataset.cpp:172-176). -/
def Dataset.GetVariable (ds : Dataset) (hashValue : Nat) : Option Variable :=
  lookupHash ds.vars hashValue

/-- From `Dataset::GetVariable(const std::string&)` (dataset.cpp:166-170):
hash the name (XXHash, modelled as an arbitrary hash function since the
hasher lives outside the sources) and look the hash up. -/
def Dataset.GetVariableByName (hashFn : String → Nat) (ds : Dataset)
    (name : String) : Option Variable :=
  ds.GetVariable (hashFn name)

/-- From `Dataset::Shuffle` (dataset.cpp:178-186): throws when the dataset is
a view, otherwise permutes the rows by a random permutation (the drawn
permutation is passed explicitly here). -/
def Dataset.Shuffle (ds : Dataset) (perm : List Nat) : Except DatasetError Dataset :=
  if ds.isView then .error .viewNotMutable
  else .ok { ds with values := ds.values.map (fun col => perm.map (fun k => col.getD k 0)) }

/-- Mean of a segment as computed by the accumulated statistics
(`stats.mean = sum / n`). -/
def segMean (seg : List ℚ) : ℚ := seg.sum / seg.length

/-- Population variance of a segment as computed by the accumulated
statistics (`stats.variance`, the sum of squared deviations over `n`). -/
def segVariance (seg : List ℚ) : ℚ :=
  (seg.map (fun x => (x - segMean seg) ^ 2)).sum / seg.length

/-- From `Dataset::Normalize` (dataset.cpp:188-199): view check, range
`EXPECT`, then the whole column is shifted by the segment minimum and scaled
by the segment extent. -/
def Dataset.Normalize (ds : Dataset) (i : Nat) (r : Range) : Except DatasetError Dataset :=
  if ds.isView then .error .viewNotMutable
  else if r.start + r.size ≤ ds.Rows then
    let col := ds.values.getD i []
    let seg := (col.drop r.start).take r.size
    let lo := seg.foldl min (seg.headD 0)
    let hi := seg.foldl max (seg.headD 0)
    .ok { ds with values := ds.values.set i (col.map (fun x => (x - lo) / (hi - lo))) }
  else .error .invalidRange

/-- From `Dataset::Standardize` (dataset.cpp:202-213): view check, range
`EXPECT`, statistics over the segment, then the whole column is shifted by
the mean and divided by `stddev` — which the source computes as
`stats.variance * stats.variance` (dataset.cpp:211). -/
def Dataset.Standardize (ds : Dataset) (i : Nat) (r : Range) : Except DatasetError Dataset :=
  if ds.isView then .error .viewNotMutable
  else if r.start + r.size ≤ ds.Rows then
    let col := ds.values.getD i []
    let seg := (col.drop r.start).take r.size
    let mean := segMean seg
    let stddev := segVariance seg * segVariance seg
    .ok { ds with values := ds.values.set i (col.map (fun x => (x - mean) / stddev)) }
  else .error .invalidRange

/-! ### Lemmas about variable lookup -/

/-! ### Claim theorems: dataset -/

/-! ## Sorting helper

A stable insertion sort with a boolean comparator, used to embed
`std::sort`/`std::stable_sort`/`pdqsort` call sites.  With a non-strict
(total) comparator this is a stable sort; where the C++ uses `std::sort`
with a strict comparator the result shown here is one of the permitted
sorted outputs (unique whenever no two keys tie). -/

def insertBy {α : Type} (le : α → α → Bool) (a : α) : List α → List α
  | [] => [a]
  | b :: bs => if le a b then a :: b :: bs else b :: insertBy le a bs

def sortBy {α : Type} (le : α → α → Bool) : List α → List α
  | [] => []
  | a :: as => insertBy le a (sortBy le as)

/-! ## Proportional selector (`src/operators/selector/proportional.cpp`)

The selector's state is the `fitness` vector of `(scalar, index)` pairs
built by `Prepare` from the objective values of the population.  The C++
pairs are ordered by `std::less<std::pair<Scalar, size_t>>`, i.e.
lexicographically. -/

/-- Strict lexicographic order on `(Scalar, size_t)` pairs
(`std::less<std::pair>`). -/
def pairLtB (p q : ℚ × Nat) : Bool :=
  if p.1 < q.1 then true else if q.1 < p.1 then false else decide (p.2 < q.2)

/-- Non-strict lexicographic order on `(Scalar, size_t)` pairs; sorting by it
agrees with `std::sort` under `std::less` (all pairs are distinct since they
carry distinct indices). -/
def pairLeB (p q : ℚ × Nat) : Bool :=
  if p.1 < q.1 then true else if q.1 < p.1 then false else decide (p.2 ≤ q.2)

/-- The fitness-collection loop of `ProportionalSelector::Prepare`
(proportional.cpp:26-32): pairs `(f_i, i)` in population order. -/
def collectFitness (fs : List ℚ) (i : Nat) : List (ℚ × Nat) :=
  match fs with
  | [] => []
  | f :: rest => (f, i) :: collectFitness rest (i + 1)

/-- Tail of `std::inclusive_scan` with the pair-summing operator
`(lhs, rhs) ↦ (lhs.first + rhs.first, rhs.second)` (proportional.cpp:36). -/
def inclusiveScanGo (acc : ℚ × Nat) : List (ℚ × Nat) → List (ℚ × Nat)
  | [] => [acc]
  | x :: rest => acc :: inclusiveScanGo (acc.1 + x.1, x.2) rest

/-- `std::inclusive_scan` with the pair-summing operator. -/
def inclusiveScanPairs : List (ℚ × Nat) → List (ℚ × Nat)
  | [] => []
  | x :: rest => inclusiveScanGo x rest

/-- From `ProportionalSelector::Prepare` (proportional.cpp:21-37): collect
`(f_i, i)`, compute `vmax` (a `vmin` is computed by the same loop but never
used), transform each pair to `(vmax - f_i, i)`, sort ascending, then take
the inclusive prefix sum of the first components. -/
def ProportionalSelector.Prepare (fs : List ℚ) : List (ℚ × Nat) :=
  match fs with
  | [] => []
  | f0 :: _ =>
    let pairs := collectFitness fs 0
    let vmax := fs.foldl max f0
    let transformed := pairs.map (fun p => (vmax - p.1, p.2))
    inclusiveScanPairs (sortBy pairLeB transformed)

/-- From `ProportionalSelector::operator()` (proportional.cpp:8-13): given
the drawn value `u` (the C++ draws `u ~ Uniform(0, total - ε)`),
`std::lower_bound` for the pair `(u, 0)` over the prepared vector, then the
stored index.  `lower_bound` on a sorted range is `dropWhile (· < value)`;
the `Option` is `none` exactly when `lower_bound` would return `end()` (the
C++ dereferences unconditionally, which is undefined there). -/
def ProportionalSelector.Select (fs : List ℚ) (u : ℚ) : Option Nat :=
  (((ProportionalSelector.Prepare fs).dropWhile
      (fun p => pairLtB p (u, 0))).head?).map Prod.snd

/-! ## PTC2 target-length adjustment (`src/operators/creator/ptc2.cpp`) -/

/-- From ptc2.cpp:75 (and 83): the computed max child arity
`min(maxFunctionArity, targetLen - q.size() - nodes.size() - 1)` in `size_t`
arithmetic. -/
def ptc2MaxArity (maxFA targetLen qSize nNodes : Nat) : Nat :=
  min maxFA (usub64 targetLen (qSize + nNodes + 1))

/-- From ptc2.cpp:79-84: when the computed max arity lies strictly between 0
and `minFunctionArity`, the code executes
`targetLen -= minFunctionArity - maxArity` — pushing the target length
*down* by the shortfall — and recomputes the max arity from the new target
length; otherwise both are left unchanged.  The already-computed `maxArity`
is passed in (upstream it is either the formula above or 0 when the
irregularity-bias trial fired). -/
def ptc2AdjustTarget (minFA maxFA targetLen qSize nNodes maxArity : Nat) :
    Nat × Nat :=
  if 0 < maxArity ∧ maxArity < minFA then
    let targetLen' := usub64 targetLen (minFA - maxArity)
    (targetLen', ptc2MaxArity maxFA targetLen' qSize nNodes)
  else (targetLen, maxArity)

/-! ## Expression IR (`src/core/tree.cpp`)

The node record is modelled from the spec's data model (`core/node.hpp` is
not among the sources): a node carries its declared `arity` (0 for leaves —
`IsLeaf()` tests exactly this), the derived fields `length`, `depth`,
`level`, `parent`, the scalar payload `value` and, for variable leaves, the
bound variable hash. -/

structure PNode where
  arity : Nat
  length : Nat := 0
  depth : Nat := 0
  level : Nat := 0
  parent : Nat := 0
  value : ℚ := 0
  isVariable : Bool := false
  hashValue : Nat := 0
  calculatedHashValue : Nat := 0
deriving Repr, DecidableEq

instance : Inhabited PNode := ⟨{ arity := 0 }⟩

/-- Modelled from the spec: `Node::IsLeaf()` — the arity is 0 exactly for
leaves. -/
def PNode.IsLeaf (n : PNode) : Bool := n.arity == 0

/-- Read `nodes[j]`.  Out-of-range reads — undefined behaviour in C++ —
yield the default node here; on the valid layouts the theorems quantify
over they never happen. -/
def lget (ns : List PNode) (j : Nat) : PNode := ns.getD j default

/-- Write `nodes[j] = v` (no-op out of range, as above). -/
def lset (ns : List PNode) (j : Nat) (v : PNode) : List PNode := ns.set j v

/-- The child walk of `Tree::UpdateNodes` (tree.cpp:25-32): `k` children
remain, `j` is the index of the current child's root; the walk accumulates
the parent's `length` and `depth`, sets each child root's `parent` field to
`i`, and back-jumps `child.length + 1` slots. -/
def updateWalk (i : Nat) :
    Nat → Nat → List PNode → Nat → Nat → List PNode × Nat × Nat
  | 0, _, ns, len, dep => (ns, len, dep)
  | k + 1, j, ns, len, dep =>
    let p := lget ns j
    updateWalk i k (j - (p.length + 1)) (lset ns j { p with parent := i })
      (len + p.length) (max dep p.depth)

/-- One iteration of the first pass of `Tree::UpdateNodes` (tree.cpp:17-34)
at node `i`: `depth` is reset to 1 and `length` to `arity`; for an internal
node the walk over the `arity` child roots accumulates `length` and `depth`
(then `depth` is incremented) and sets the children's `parent`. -/
def updateAt (ns : List PNode) (i : Nat) : List PNode :=
  let s := lget ns i
  if s.arity = 0 then lset ns i { s with depth := 1, length := s.arity }
  else
    let w := updateWalk i s.arity (i - 1) ns s.arity 1
    lset w.1 i { s with length := w.2.1, depth := w.2.2 + 1 }

/-- Second pass of `Tree::UpdateNodes` (tree.cpp:35-39): the root (last
node) gets `level = 1`, then every other node, visited from the next-to-last
index down to 0, gets its parent's `level` plus one. -/
def updateLevels (ns : List PNode) : List PNode :=
  match ns.length with
  | 0 => ns
  | m + 1 =>
    let withRoot := lset ns m { lget ns m with level := 1 }
    (List.range m).reverse.foldl
      (fun acc j =>
        let nd := lget acc j
        lset acc j { nd with level := (lget acc nd.parent).level + 1 }) withRoot

/-- `Tree::UpdateNodes` (tree.cpp:15-42): the left-to-right derived-field
pass followed by the level pass. -/
def Tree.UpdateNodes (ns : List PNode) : List PNode :=
  updateLevels ((List.range ns.length).foldl updateAt ns)

/-- `Tree::GetCoefficients` (tree.cpp:130-139): the values of the leaves in
array order. -/
def Tree.GetCoefficients : List PNode → List ℚ
  | [] => []
  | s :: rest =>
    if s.IsLeaf then s.value :: Tree.GetCoefficients rest
    else Tree.GetCoefficients rest

/-- The indexed loop of `Tree::SetCoefficients` (tree.cpp:141-149). -/
def setCoefficientsGo (cs : List ℚ) : List PNode → Nat → List PNode
  | [], _ => []
  | s :: rest, idx =>
    if s.IsLeaf then
      { s with value := cs.getD idx 0 } :: setCoefficientsGo cs rest (idx + 1)
    else s :: setCoefficientsGo cs rest idx

/-- `Tree::SetCoefficients` (tree.cpp:141-149): writes `coefficients[idx++]`
into each leaf in array order. -/
def Tree.SetCoefficients (ns : List PNode) (cs : List ℚ) : List PNode :=
  setCoefficientsGo cs ns 0

/-- Number of leaf nodes of a tree. -/
def leafCount (ns : List PNode) : Nat := (ns.filter (fun s => s.IsLeaf)).length

/-! ## Valid postfix layouts and the `UpdateNodes` length invariant

A valid postfix layout is the flattening of an inductive rose tree: every
node appears directly after the blocks of its children.  `PTree.arities` is
the arity column of that flattening and `PTree.lens` its per-node descendant
count (subtree size minus one), the value the claim says `UpdateNodes` must
compute into each `length` field. -/

inductive PTree where
  | node : List PTree → PTree

mutual

/-- Number of nodes of a tree. -/
def PTree.size : PTree → Nat
  | .node cs => PTree.sizeL cs + 1

/-- Number of nodes of a forest. -/
def PTree.sizeL : List PTree → Nat
  | [] => 0
  | t :: ts => PTree.size t + PTree.sizeL ts

end

/-- Descendant count of a tree's root. -/
def PTree.rootLen : PTree → Nat
  | .node cs => PTree.sizeL cs

mutual

/-- The arity column of the postfix flattening of a tree. -/
def PTree.arities : PTree → List Nat
  | .node cs => PTree.aritiesL cs ++ [cs.length]

/-- The arity column of the postfix flattening of a forest. -/
def PTree.aritiesL : List PTree → List Nat
  | [] => []
  | t :: ts => PTree.arities t ++ PTree.aritiesL ts

end

mutual

/-- The descendant-count column of the postfix flattening of a tree. -/
def PTree.lens : PTree → List Nat
  | .node cs => PTree.lensL cs ++ [PTree.sizeL cs]

/-- The descendant-count column of the postfix flattening of a forest. -/
def PTree.lensL : List PTree → List Nat
  | [] => []
  | t :: ts => PTree.lens t ++ PTree.lensL ts

end

/-! ### The length computation of `UpdateNodes` over bare length columns

`updateWalk`/`updateAt` only ever read the `length` fields of earlier
positions, so the whole first pass induces a computation on the bare arity
and length columns; `walkLen`, `stepLen` and `passLensFrom` are that
computation, and the lemmas below tie it to the node-level functions. -/

/-- The length accumulation of the child walk over a bare length column. -/
def walkLen (ls : List Nat) : Nat → Nat → Nat → Nat
  | 0, _, acc => acc
  | k + 1, j, acc => walkLen ls k (j - (ls.getD j 0 + 1)) (acc + ls.getD j 0)

/-- The indices visited by the child walk (the `Children(i)` iterator of the
source, last child first). -/
def childIndicesGo (ls : List Nat) : Nat → Nat → List Nat
  | 0, _ => []
  | k + 1, j => j :: childIndicesGo ls k (j - (ls.getD j 0 + 1))

/-- The `length` value `updateAt` assigns at position `i`, as a function of
the arity column and the current length column. -/
def stepLen (A ls : List Nat) (i : Nat) : Nat :=
  walkLen ls (A.getD i 0) (i - 1) (A.getD i 0)

/-- The length column after processing positions `m, m+1, …, m+k-1` of the
first pass. -/
def passLensFrom (A ls : List Nat) (m : Nat) : Nat → List Nat
  | 0 => ls
  | k + 1 =>
    (passLensFrom A ls m k).set (m + k)
      (stepLen A (passLensFrom A ls m k) (m + k))

/-! ### Correspondence between node arrays and their columns -/

/-! ### Forest lemmas -/

/-- The child-index list of the source's `Children(i)` iterator: the same
back-jump walk as `UpdateNodes`, over the current length column (children
listed last-first). -/
def childIndices (ns : List PNode) (i : Nat) : List Nat :=
  childIndicesGo (ns.map PNode.length) (lget ns i).arity (i - 1)

/-! ## Hierarchical non-dominated sorter
(`src/operators/non_dominated_sorter/hierarchical_sort.cpp`)

Individuals are their fitness vectors.  `ParetoCompare` and
`LexicographicalComparison` live in `core/individual.hpp`, which is not
among the sources; they are modelled from the spec (minimization:
dominance is weak componentwise `≤` plus at least one strict improvement;
the lexicographic comparison is the usual one on fitness vectors). -/

inductive Dominance where
  | left | right | equal | none
deriving Repr, DecidableEq

/-- Modelled from the spec: `ParetoCompare(a,b) → {Left, Right, Equal,
None}`, the strict-dominance relation (weak dominance plus at least one
strict improvement) for minimized fitness vectors. -/
def paretoCompare (a b : List ℚ) : Dominance :=
  if a = b then .equal
  else if (a.zip b).all (fun p => decide (p.1 ≤ p.2)) then .left
  else if (a.zip b).all (fun p => decide (p.2 ≤ p.1)) then .right
  else .none

/-- Modelled from the spec: `LexicographicalComparison` on fitness
vectors. -/
def lexLess : List ℚ → List ℚ → Bool
  | [], [] => false
  | [], _ :: _ => true
  | _ :: _, [] => false
  | a :: as, b :: bs =>
    if a < b then true else if b < a then false else lexLess as bs

/-- The `std::stable_sort` of requeued candidates by
`LexicographicalComparison` (hierarchical_sort.cpp:38): the stable
insertion sort with the non-strict complement of the comparator. -/
def hierRequeue (pop : List (List ℚ)) (dominated : List Nat) : List Nat :=
  sortBy (fun a b => ! lexLess (pop.getD b []) (pop.getD a [])) dominated

/-- The innermost scan of `HierarchicalSorter::Sort`
(hierarchical_sort.cpp:24-32): pop the front `qj`; if `q1` and `qj` are
incomparable requeue `qj` (and count it), otherwise demote it to
`dominated`.  The fuel is the loop measure `q.size() -
nonDominatedCount`; callers pass `q.length`, which makes the fueled
recursion equal the C++ loop. -/
def hierScan (pop : List (List ℚ)) (q1 : Nat) :
    Nat → List Nat → List Nat → List Nat × List Nat
  | 0, q, dominated => (q, dominated)
  | fuel + 1, q, dominated =>
    match q with
    | [] => (q, dominated)
    | qj :: rest =>
      if paretoCompare (pop.getD q1 []) (pop.getD qj []) = Dominance.none then
        hierScan pop q1 fuel (rest ++ [qj]) dominated
      else
        hierScan pop q1 fuel rest (dominated ++ [qj])

/-- The middle loop of `HierarchicalSorter::Sort`
(hierarchical_sort.cpp:20-33): pop `q1` into the current front and scan
the remaining queue.  Fuel: the queue length strictly decreases each
iteration, so `q.length` fuel makes the recursion equal the C++ loop. -/
def hierInner (pop : List (List ℚ)) :
    Nat → List Nat → List Nat → List Nat → List Nat × List Nat
  | 0, _, dominated, front => (front, dominated)
  | fuel + 1, q, dominated, front =>
    match q with
    | [] => (front, dominated)
    | q1 :: rest =>
      let s := hierScan pop q1 rest.length rest dominated
      hierInner pop fuel s.1 s.2 (front ++ [q1])

/-- The outer loop of `HierarchicalSorter::Sort`
(hierarchical_sort.cpp:16-39): extract a front, requeue the dominated
candidates sorted lexicographically, repeat.  Each round removes at least
one candidate, so `q.length` fuel makes the recursion equal the C++
loop. -/
def hierOuter (pop : List (List ℚ)) :
    Nat → List Nat → List (List Nat) → List (List Nat)
  | 0, _, fronts => fronts
  | fuel + 1, q, fronts =>
    match q with
    | [] => fronts
    | q1 :: rest =>
      let r := hierInner pop (q1 :: rest).length (q1 :: rest) [] []
      hierOuter pop fuel (hierRequeue pop r.2) (fronts ++ [r.1])

/-- The initial candidate queue of `HierarchicalSorter::Sort`
(hierarchical_sort.cpp:10-11): `std::iota` — the indices `0 .. n-1` in
index order. -/
def hierInitQueue (pop : List (List ℚ)) : List Nat := List.range pop.length

/-- `HierarchicalSorter::Sort` (hierarchical_sort.cpp:7-41). -/
def HierarchicalSorter.Sort (pop : List (List ℚ)) : List (List Nat) :=
  hierOuter pop pop.length (hierInitQueue pop) []

/-- The claim's description of the initial queue, following the spec
pseudocode `q = [0 .. n-1] sorted lexicographically by fitness`: the
indices stably sorted by lexicographic fitness comparison (to be compared
with `hierInitQueue`, which the source computes). -/
def hierInitQueueSpec (pop : List (List ℚ)) : List Nat :=
  sortBy (fun a b => ! lexLess (pop.getD b []) (pop.getD a []))
    (List.range pop.length)

/-! ### Partition lemmas for the hierarchical sorter -/

/-! ## Tree creators (`src/operators/creator/balanced.cpp`,
`src/operators/creator/ptc2.cpp`)

The primitive set and its sampler live in `core/pset.hpp`, which is not
among the sources; they are modelled from the spec.  The RNG draws the
creators consume are abstracted into `CreatorRand` over an arbitrary state
type. -/

/-- Modelled from the spec: a primitive-set entry — a node type with
per-type frequency, enable flag, and min/max arity. -/
structure Primitive where
  typeId : Nat
  frequency : Nat
  enabled : Bool
  minArity : Nat
  maxArity : Nat
deriving Repr, DecidableEq

/-- Modelled from the spec: the primitive set. -/
structure PrimitiveSet where
  prims : List Primitive
deriving Repr, DecidableEq

/-- Modelled from the spec: `FunctionArityLimits` — the tightest envelope
over all enabled function (arity ≥ 1) types.  When no function type is
enabled the value is left at `(0, 0)`; nothing below depends on that
case. -/
def PrimitiveSet.FunctionArityLimits (ps : PrimitiveSet) : Nat × Nat :=
  match ps.prims.filter (fun p => p.enabled && decide (1 ≤ p.minArity)) with
  | [] => (0, 0)
  | f :: fs => (fs.foldl (fun a p => min a p.minArity) f.minArity,
      fs.foldl (fun a p => max a p.maxArity) f.maxArity)

/-- The random draws the creators consume, over an abstract RNG state `σ`:
`uniformNat a b` models `std::uniform_int_distribution(a, b)`, `normal`
models `std::normal_distribution(0, 1)`, `bern` the irregularity-bias
Bernoulli trial, and `sample lo hi` models
`PrimitiveSet::SampleRandomSymbol` (`none` is the `NoSymbolAvailable`
failure). -/
structure CreatorRand (σ : Type) where
  uniformNat : Nat → Nat → σ → Nat × σ
  normal : σ → ℚ × σ
  bern : σ → Bool × σ
  sample : Nat → Nat → σ → Option (PNode × σ)

/-- Modelled from the spec: `SampleRandomSymbol` returns a node whose
arity lies in the requested window. -/
def SampleSound {σ : Type} (R : CreatorRand σ) : Prop :=
  ∀ lo hi s nd s', R.sample lo hi s = some (nd, s') →
    lo ≤ nd.arity ∧ nd.arity ≤ hi

/-- Modelled from the spec: `SampleRandomSymbol` succeeds whenever some
enabled primitive's arity range intersects the requested window. -/
def SampleComplete (ps : PrimitiveSet) {σ : Type} (R : CreatorRand σ) : Prop :=
  ∀ lo hi s, (∃ p ∈ ps.prims, p.enabled = true ∧
      max p.minArity lo ≤ min p.maxArity hi) →
    (R.sample lo hi s).isSome = true

/-- The leaf initialization shared by both creators (balanced.cpp:13-21,
ptc2.cpp:17-25): a variable leaf gets a uniformly drawn variable hash,
every leaf gets a Normal(0,1) value. -/
def initLeaf {σ : Type} (R : CreatorRand σ) (vars : List Nat) (nd : PNode)
    (s : σ) : PNode × σ :=
  if nd.IsLeaf then
    let p :=
      if nd.isVariable then
        let u := R.uniformNat 0 (vars.length - 1) s
        let h := vars.getD u.1 0
        ({ nd with hashValue := h, calculatedHashValue := h }, u.2)
      else (nd, s)
    let v := R.normal p.2
    ({ p.1 with value := v.1 }, v.2)
  else (nd, s)

/-- A work-queue tuple of the balanced creator:
`(node, depth, childIndex)` (balanced.cpp:28). -/
structure BTuple where
  node : PNode
  depth : Nat
  childIndex : Nat
deriving Repr, DecidableEq

instance : Inhabited BTuple := ⟨⟨default, 0, 0⟩⟩

/-- Read `tuples[i]`. -/
def lgetB (ts : List BTuple) (i : Nat) : BTuple := ts.getD i default

/-- The per-child sampling loop of the balanced creator
(balanced.cpp:53-67) with `k` children left to fill.  The persistent
`minArity` variable is threaded through because the C++ assignment
`minArity = maxArity = 0` survives into later iterations.  The Bernoulli
draw happens only when the left operand of `&&` is true (short-circuit
evaluation consumes RNG state conditionally). -/
def balancedFill {σ : Type} (R : CreatorRand σ) (vars : List Nat)
    (minFA maxFA targetLen childDepth : Nat) :
    Nat → List BTuple → Nat → Nat → σ → Option (List BTuple × Nat × Nat × σ)
  | 0, tuples, minArity, openSlots, s => some (tuples, minArity, openSlots, s)
  | k + 1, tuples, minArity, openSlots, s =>
    let b := if 1 < usub64 openSlots tuples.length then R.bern s
      else (false, s)
    let maxArity := if b.1 then 0
      else min maxFA (usub64 targetLen (openSlots + 1))
    let ma := if maxArity < minFA then (0, 0) else (minArity, maxArity)
    match R.sample ma.1 ma.2 b.2 with
    | none => none
    | some (child, s1) =>
      let c := initLeaf R vars child s1
      balancedFill R vars minFA maxFA targetLen childDepth k
        (tuples ++ [⟨c.1, childDepth, 0⟩]) ma.1 (openSlots + c.1.arity) c.2

/-- The breadth-first expansion loop of the balanced creator
(balanced.cpp:49-68), fueled (the C++ `for` runs `i` over the growing
tuple vector; each tuple's `childIndex` is set to the vector size before
its children are appended). -/
def balancedLoop {σ : Type} (R : CreatorRand σ) (vars : List Nat)
    (minFA maxFA targetLen : Nat) :
    Nat → List BTuple → Nat → Nat → Nat → σ → Option (List BTuple × σ)
  | 0, _, _, _, _, _ => none
  | fuel + 1, tuples, i, minArity, openSlots, s =>
    if i < tuples.length then
      let t := lgetB tuples i
      let tuples1 := tuples.set i { t with childIndex := tuples.length }
      match balancedFill R vars minFA maxFA targetLen (t.depth + 1)
          t.node.arity tuples1 minArity openSlots s with
      | none => none
      | some (tuples2, minArity2, openSlots2, s2) =>
        balancedLoop R vars minFA maxFA targetLen fuel tuples2 (i + 1)
          minArity2 openSlots2 s2
    else some (tuples, s)

mutual

/-- The postorder emission `add` of both creators (balanced.cpp:73-83,
ptc2.cpp:117-131), written denotationally: the C++ fills the result array
from the back while recursing into children first-to-last, which lays the
block of the first-processed child directly below the node; a node's block
is therefore its children's blocks in reverse order followed by the node
itself. -/
def emitNode (nd : Nat → PNode) (cIdx : Nat → Nat) :
    Nat → Nat → Option (List PNode)
  | 0, _ => none
  | fuel + 1, i =>
    if (nd i).IsLeaf then some [nd i]
    else
      match emitList nd cIdx fuel
          (((List.range (nd i).arity).reverse).map (fun j => cIdx i + j)) with
      | none => none
      | some block => some (block ++ [nd i])
termination_by fuel i => (fuel, 0)

/-- Emission of a list of sibling blocks. -/
def emitList (nd : Nat → PNode) (cIdx : Nat → Nat) :
    Nat → List Nat → Option (List PNode)
  | _, [] => some []
  | fuel, i :: rest =>
    match emitNode nd cIdx fuel i, emitList nd cIdx fuel rest with
    | some b, some r => some (b ++ r)
    | _, _ => none
termination_by fuel is => (fuel, is.length + 1)

end

/-- `BalancedTreeCreator::operator()` (balanced.cpp:7-86): clip the target
length, sample the root, return a single-node tree when the root is a
leaf, otherwise run the expansion loop and emit the postorder
linearization.  The loop fuel `2 * targetLen + 2` exceeds the C++ loop's
iteration count on every terminating run; a too-small fuel surfaces as
`none` and never does on the paths the theorems take. -/
def BalancedTreeCreator.create {σ : Type} (R : CreatorRand σ)
    (vars : List Nat) (ps : PrimitiveSet) (s : σ) (targetLen0 : Nat) :
    Option (List PNode) :=
  let lim := ps.FunctionArityLimits
  let targetLen := if 1 < targetLen0 ∧ targetLen0 < lim.1 + 1
    then lim.1 + 1 else targetLen0
  let maxArity := min lim.2 (usub64 targetLen 1)
  let minArity := min lim.1 maxArity
  match R.sample minArity maxArity s with
  | none => none
  | some (root0, s1) =>
    let r := initLeaf R vars root0 s1
    if r.1.IsLeaf then some (Tree.UpdateNodes [r.1])
    else
      match balancedLoop R vars lim.1 lim.2 targetLen (2 * targetLen + 2)
          [⟨r.1, 1, 1⟩] 0 minArity r.1.arity r.2 with
      | none => none
      | some (tuples, _) =>
        match emitNode (fun i => (lgetB tuples i).node)
            (fun i => (lgetB tuples i).childIndex) (tuples.length + 1) 0 with
        | none => none
        | some pf => some (Tree.UpdateNodes pf)

/-- The main loop of the probabilistic creator (ptc2.cpp:70-97), fueled:
random-dequeue a depth slot (swap a uniformly drawn element to the front
and pop it, ptc2.cpp:57-64), apply the irregularity override (with
short-circuit RNG use) and the target-length adjustment, sample a node,
and push its children's depth slots. -/
def ptc2Loop {σ : Type} (R : CreatorRand σ) (vars : List Nat)
    (minFA maxFA : Nat) :
    Nat → Nat → List Nat → List PNode → σ → Option (List PNode × σ)
  | 0, _, _, _, _ => none
  | fuel + 1, targetLen, q, nodes, s =>
    match q with
    | [] => some (nodes, s)
    | _ :: _ =>
      let u := R.uniformNat 0 (q.length - 1) s
      let childDepth := q.getD u.1 0
      let q1 := (q.set u.1 (q.getD 0 0)).drop 1
      let b := if 1 < q1.length then R.bern u.2 else (false, u.2)
      let maxArity0 := if b.1 then 0
        else ptc2MaxArity maxFA targetLen q1.length nodes.length
      let adj := ptc2AdjustTarget minFA maxFA targetLen q1.length
        nodes.length maxArity0
      let minArity := min minFA adj.2
      match R.sample minArity adj.2 b.2 with
      | none => none
      | some (node0, s2) =>
        let c := initLeaf R vars node0 s2
        let node := { c.1 with depth := childDepth }
        ptc2Loop R vars minFA maxFA fuel adj.1
          (q1 ++ List.replicate node.arity (childDepth + 1))
          (nodes ++ [node]) c.2

/-- The child-index offsets computed after the depth sort
(ptc2.cpp:100-112): each internal node, in array order, claims the next
`arity` slots starting at 1; leaves keep the zero-initialized entry
(never read). -/
def ptc2ChildIdxGo : List PNode → Nat → List Nat
  | [], _ => []
  | nd :: rest, c =>
    if nd.IsLeaf then 0 :: ptc2ChildIdxGo rest c
    else c :: ptc2ChildIdxGo rest (c + nd.arity)

/-- The child-index vector of the probabilistic creator. -/
def ptc2ChildIndices (nodes : List PNode) : List Nat :=
  ptc2ChildIdxGo nodes 1

/-- `ProbabilisticTreeCreator::operator()` (ptc2.cpp:11-135): `EXPECT`
guard, target-length clip, root sample, single-leaf early return;
otherwise the fueled main loop, the depth sort (`std::sort` by `Depth`;
the stable insertion sort here is one of its permitted outputs), the
child-index offsets, and the postorder emission. -/
def ProbabilisticTreeCreator.create {σ : Type} (R : CreatorRand σ)
    (vars : List Nat) (ps : PrimitiveSet) (s : σ) (targetLen0 : Nat) :
    Option (List PNode) :=
  if targetLen0 = 0 then none
  else
    let lim := ps.FunctionArityLimits
    let targetLen := if 1 < targetLen0 ∧ targetLen0 < lim.1 + 1
      then lim.1 + 1 else targetLen0
    let maxArity := min lim.2 (usub64 targetLen 1)
    let minArity := min lim.1 maxArity
    match R.sample minArity maxArity s with
    | none => none
    | some (root0, s1) =>
      let r := initLeaf R vars root0 s1
      if r.1.IsLeaf then some (Tree.UpdateNodes [r.1])
      else
        let root := { r.1 with depth := 1 }
        match ptc2Loop R vars lim.1 lim.2 (2 * targetLen + 2) targetLen
            (List.replicate root.arity 2) [root] r.2 with
        | none => none
        | some (nodes0, _) =>
          let nodes := sortBy (fun a b => decide (a.depth ≤ b.depth)) nodes0
          let cIdx := ptc2ChildIndices nodes
          match emitNode (fun i => lget nodes i)
              (fun i => cIdx.getD i 0) (nodes.length + 1) 0 with
          | none => none
          | some pf => some (Tree.UpdateNodes pf)

/-! ### Single-leaf creation -/

/-- A concrete single-leaf primitive set for the witness: one enabled
constant type of arity 0. -/
def leafOnlyPset : PrimitiveSet :=
  ⟨[{ typeId := 0, frequency := 1, enabled := true, minArity := 0,
      maxArity := 0 }]⟩

/-- A concrete deterministic instance of the creator RNG draws whose
sampler satisfies the `SampleRandomSymbol` contract for
`leafOnlyPset`. -/
def leafOnlyRand : CreatorRand Unit where
  uniformNat := fun _ _ s => (0, s)
  normal := fun s => (0, s)
  bern := fun s => (false, s)
  sample := fun lo _ s => if lo = 0 then some ({ arity := 0 }, s) else none

/-! ## Theorems -/

theorem usub64_eq_sub (a b : Nat) (hb : b ≤ a) (ha : a < 2 ^ 64) :
    usub64 a b = a - b := by
  unfold usub64
  have hb' : b % 2 ^ 64 = b := Nat.mod_eq_of_lt (lt_of_le_of_lt hb ha)
  rw [hb']
  have h1 : a + (2 ^ 64 - b) = (a - b) + 2 ^ 64 := by omega
  rw [h1, Nat.add_mod_right]
  exact Nat.mod_eq_of_lt (by omega)

theorem lookupHash_found (vs : List Variable) (h : Nat)
    (hs : vs.Pairwise (fun a b => a.Hash ≤ b.Hash))
    (hex : ∃ v ∈ vs, v.Hash = h) :
    ∃ w, lookupHash vs h = some w ∧ w ∈ vs ∧ w.Hash = h := by
  induction vs with
  | nil => simp at hex
  | cons v rest ih =>
    by_cases hlt : v.Hash < h
    · have hstep : lookupHash (v :: rest) h = lookupHash rest h := by
        simp [lookupHash, List.dropWhile_cons, hlt]
      rw [hstep]
      have hex' : ∃ w ∈ rest, w.Hash = h := by
        rcases hex with ⟨w, hw, hwh⟩
        rcases List.mem_cons.mp hw with rfl | hw'
        · omega
        · exact ⟨w, hw', hwh⟩
      rcases ih (List.Pairwise.sublist (List.sublist_cons_self v rest) hs) hex' with
        ⟨w, hw1, hw2, hw3⟩
      exact ⟨w, hw1, List.mem_cons_of_mem v hw2, hw3⟩
    · have hstop : lookupHash (v :: rest) h =
          if v.Hash = h then some v else none := by
        simp [lookupHash, List.dropWhile_cons, hlt]
      by_cases heq : v.Hash = h
      · exact ⟨v, by rw [hstop, if_pos heq], List.mem_cons_self v rest, heq⟩
      · exfalso
        rcases hex with ⟨w, hw, hwh⟩
        rcases List.mem_cons.mp hw with rfl | hw'
        · exact heq hwh
        · have := (List.pairwise_cons.mp hs).1 w hw'
          omega

theorem lookupHash_none (vs : List Variable) (h : Nat)
    (hnone : ∀ v ∈ vs, v.Hash ≠ h) :
    lookupHash vs h = none := by
  induction vs with
  | nil => simp [lookupHash]
  | cons v rest ih =>
    by_cases hlt : v.Hash < h
    · have hstep : lookupHash (v :: rest) h = lookupHash rest h := by
        simp [lookupHash, List.dropWhile_cons, hlt]
      rw [hstep]
      exact ih (fun w hw => hnone w (List.mem_cons_of_mem v hw))
    · have hstop : lookupHash (v :: rest) h =
          if v.Hash = h then some v else none := by
        simp [lookupHash, List.dropWhile_cons, hlt]
      rw [hstop, if_neg (hnone v (List.mem_cons_self v rest))]

/-- C1: the claim says `Standardize` divides the mean-shifted column by the
standard deviation `sqrt(variance)`; the source (dataset.cpp:211) instead
divides by `variance * variance`.  On the owned single-column dataset
`[0,0,4,4]` over the full row range the segment variance is `4`, so the
correct standard deviation is `2` and the standardized column would be
`[-1,-1,1,1]`, but the code divides by `4 * 4 = 16` and produces
`[-1/8,-1/8,1/8,1/8]`. -/
theorem standardize_divides_by_variance_squared :
    (Dataset.Standardize { vars := [], values := [[0, 0, 4, 4]], isView := false }
        0 ⟨0, 4⟩ =
      .ok { vars := [], values := [[-(1/8), -(1/8), 1/8, 1/8]], isView := false }) ∧
    segVariance [0, 0, 4, 4] = 4 ∧ (2 : ℚ) * 2 = 4 ∧ (0 : ℚ) ≤ 2 ∧
    [-(1/8), -(1/8), 1/8, (1/8 : ℚ)] ≠
      ([0, 0, 4, 4] : List ℚ).map (fun x => (x - segMean [0, 0, 4, 4]) / 2) := by
  refine ⟨?_, by norm_num [segVariance, segMean], by norm_num, by norm_num,
    by norm_num [segMean]⟩
  simp [Dataset.Standardize, Dataset.Rows]
  norm_num [segMean, segVariance]

/-- C7: each mutating dataset operation (`Shuffle`, `Normalize`,
`Standardize`) fails with the view-not-mutable error on a dataset in view
mode (in the functional embedding the error is returned before any new
values are produced, mirroring the C++ `throw` that precedes any mutation),
and never produces that error on a dataset that owns its storage. -/
theorem view_mutating_ops (ds : Dataset) (perm : List Nat) (i : Nat) (r : Range) :
    (ds.isView = true →
      ds.Shuffle perm = .error .viewNotMutable ∧
      ds.Normalize i r = .error .viewNotMutable ∧
      ds.Standardize i r = .error .viewNotMutable) ∧
    (ds.isView = false →
      ds.Shuffle perm ≠ .error .viewNotMutable ∧
      ds.Normalize i r ≠ .error .viewNotMutable ∧
      ds.Standardize i r ≠ .error .viewNotMutable) := by
  constructor
  · intro h
    refine ⟨?_, ?_, ?_⟩ <;>
      simp [Dataset.Shuffle, Dataset.Normalize, Dataset.Standardize, h]
  · intro h
    refine ⟨?_, ?_, ?_⟩
    · simp [Dataset.Shuffle, h]
    · unfold Dataset.Normalize
      rw [h]
      simp only [Bool.false_eq_true, if_false]
      split <;> simp
    · unfold Dataset.Standardize
      rw [h]
      simp only [Bool.false_eq_true, if_false]
      split <;> simp

/-- C7 witness: a concrete view dataset fails with the view error, a
concrete owning dataset does not. -/
theorem view_mutating_ops_witness :
    (Dataset.Standardize { vars := [], values := [[1, 2]], isView := true }
        0 ⟨0, 2⟩ = .error .viewNotMutable) ∧
    (Dataset.Standardize { vars := [], values := [[1, 2]], isView := false }
        0 ⟨0, 2⟩ ≠ .error .viewNotMutable) :=
  ⟨((view_mutating_ops _ [] 0 ⟨0, 2⟩).1 rfl).2.2,
   ((view_mutating_ops _ [] 0 ⟨0, 2⟩).2 rfl).2.2⟩

/-- C10: on a dataset whose variable vector is sorted by hash (the invariant
every constructor and `SetVariableNames` maintain via `std::sort`),
`GetVariable(name)` returns a stored variable whose hash equals the hash of
the name whenever one exists, and returns `nullopt` — rather than failing —
when no variable with that hash exists. -/
theorem getVariable_by_hash (hashFn : String → Nat) (ds : Dataset) (name : String)
    (hs : ds.vars.Pairwise (fun a b => a.Hash ≤ b.Hash)) :
    ((∃ v ∈ ds.vars, v.Hash = hashFn name) →
      ∃ w, ds.GetVariableByName hashFn name = some w ∧
        w ∈ ds.vars ∧ w.Hash = hashFn name) ∧
    ((∀ v ∈ ds.vars, v.Hash ≠ hashFn name) →
      ds.GetVariableByName hashFn name = none) := by
  constructor
  · intro hex
    exact lookupHash_found ds.vars (hashFn name) hs hex
  · intro hnone
    exact lookupHash_none ds.vars (hashFn name) hnone

/-- C10 witness: lookup in a concrete two-variable dataset, one hit and one
miss. -/
theorem getVariable_by_hash_witness :
    (∃ w, Dataset.GetVariableByName (fun _ => 5)
        { vars := [⟨"a", 3, 0⟩, ⟨"b", 5, 1⟩], values := [[1], [2]], isView := false }
        "b" = some w ∧
      w ∈ [Variable.mk "a" 3 0, Variable.mk "b" 5 1] ∧ w.Hash = 5) ∧
    Dataset.GetVariableByName (fun _ => 7)
        { vars := [⟨"a", 3, 0⟩, ⟨"b", 5, 1⟩], values := [[1], [2]], isView := false }
        "c" = none :=
  ⟨(getVariable_by_hash (fun _ => 5) _ "b" (by decide)).1 (by decide),
   (getVariable_by_hash (fun _ => 7) _ "c" (by decide)).2 (by decide)⟩

theorem insertBy_perm {α : Type} (le : α → α → Bool) (a : α) (l : List α) :
    (insertBy le a l).Perm (a :: l) := by
  induction l with
  | nil => simp [insertBy]
  | cons b bs ih =>
    unfold insertBy
    split
    · exact List.Perm.refl _
    · exact (List.Perm.cons b ih).trans (List.Perm.swap a b bs)

theorem sortBy_perm {α : Type} (le : α → α → Bool) (l : List α) :
    (sortBy le l).Perm l := by
  induction l with
  | nil => simp [sortBy]
  | cons a as ih =>
    exact (insertBy_perm le a (sortBy le as)).trans (List.Perm.cons a ih)

/-- Concrete evaluation of `Prepare` on the fitness vector `[1, 2, 3]`:
transformed pairs `(2,0), (1,1), (0,2)` sort to `(0,2), (1,1), (2,0)` and
prefix-sum to `(0,2), (1,1), (3,0)`. -/
theorem prepare_one_two_three :
    ProportionalSelector.Prepare [1, 2, 3] = [(0, 2), (1, 1), (3, 0)] := by
  simp [ProportionalSelector.Prepare, collectFitness, sortBy, insertBy,
    pairLeB, inclusiveScanPairs, inclusiveScanGo, max_def]
  norm_num

theorem select_half :
    ProportionalSelector.Select [1, 2, 3] (1/2) = some 1 := by
  have h : ((ProportionalSelector.Prepare [1, 2, 3]).dropWhile
      (fun p => pairLtB p (1/2, 0))) = [(1, 1), (3, 0)] := by
    rw [prepare_one_two_three]
    simp [pairLtB]
    norm_num
  show (((ProportionalSelector.Prepare [1, 2, 3]).dropWhile
      (fun p => pairLtB p (1/2, 0))).head?).map Prod.snd = some 1
  rw [h]
  rfl

theorem select_five_halves :
    ProportionalSelector.Select [1, 2, 3] (5/2) = some 0 := by
  have h : ((ProportionalSelector.Prepare [1, 2, 3]).dropWhile
      (fun p => pairLtB p (5/2, 0))) = [(3, 0)] := by
    rw [prepare_one_two_three]
    simp [pairLtB]
    norm_num
  show (((ProportionalSelector.Prepare [1, 2, 3]).dropWhile
      (fun p => pairLtB p (5/2, 0))).head?).map Prod.snd = some 0
  rw [h]
  rfl

/-- C3 counterexample: the claim predicts prefix sums `[2, 3, 3]` and
selections `u = 0.5 ↦ 2`, `u = 2.5 ↦ 1`; the code sorts the transformed
pairs before the prefix sum, so none of the three predicted values is what
the code computes. -/
theorem proportional_claim_false :
    ¬ ((ProportionalSelector.Prepare [1, 2, 3]).map Prod.fst = [2, 3, 3] ∧
       ProportionalSelector.Select [1, 2, 3] (1/2) = some 2 ∧
       ProportionalSelector.Select [1, 2, 3] (5/2) = some 1) := by
  intro hcl
  have h1 := hcl.1
  rw [prepare_one_two_three] at h1
  simp at h1

/-- C3 corrected: for fitness `[1, 2, 3]` (lower is better) `Prepare` stores
the sorted-and-scanned pairs `[(0,2), (1,1), (3,0)]` (prefix sums `[0,1,3]`
attached to indices `[2,1,0]`), drawing `u = 0.5` selects index 1 and
drawing `u = 2.5` selects index 0. -/
theorem proportional_prepare_select :
    ProportionalSelector.Prepare [1, 2, 3] = [(0, 2), (1, 1), (3, 0)] ∧
    ProportionalSelector.Select [1, 2, 3] (1/2) = some 1 ∧
    ProportionalSelector.Select [1, 2, 3] (5/2) = some 0 :=
  ⟨prepare_one_two_three, select_half, select_five_halves⟩

/-- C4 counterexample: with `minFunctionArity = maxFunctionArity = 2`,
`targetLen = 5`, one queued slot and two nodes, the computed max arity is 1
(strictly between 0 and 2); the claim predicts the adjusted target length
`5 + (2 - 1) = 6`, but the code produces `5 - (2 - 1) = 4`. -/
theorem ptc2_adjust_claim_false :
    0 < ptc2MaxArity 2 5 1 2 ∧ ptc2MaxArity 2 5 1 2 < 2 ∧
    (ptc2AdjustTarget 2 2 5 1 2 (ptc2MaxArity 2 5 1 2)).1 = 4 ∧
    (ptc2AdjustTarget 2 2 5 1 2 (ptc2MaxArity 2 5 1 2)).1 ≠
      5 + (2 - ptc2MaxArity 2 5 1 2) := by
  decide

/-- C4 corrected: whenever the computed maximum child arity is strictly
between 0 and `min_function_arity`, the creator *decreases* `target_length`
by the shortfall (`min_function_arity` minus the computed max arity) — so
the new target is strictly smaller — and then recomputes the maximum arity
from the new target length. -/
theorem ptc2_adjust_decreases (minFA maxFA targetLen qSize nNodes : Nat)
    (hL : targetLen < 2 ^ 64)
    (hma0 : 0 < ptc2MaxArity maxFA targetLen qSize nNodes)
    (hma : ptc2MaxArity maxFA targetLen qSize nNodes < minFA)
    (hmin : minFA + 1 ≤ targetLen) :
    (ptc2AdjustTarget minFA maxFA targetLen qSize nNodes
        (ptc2MaxArity maxFA targetLen qSize nNodes)).1 =
      targetLen - (minFA - ptc2MaxArity maxFA targetLen qSize nNodes) ∧
    (ptc2AdjustTarget minFA maxFA targetLen qSize nNodes
        (ptc2MaxArity maxFA targetLen qSize nNodes)).1 < targetLen ∧
    (ptc2AdjustTarget minFA maxFA targetLen qSize nNodes
        (ptc2MaxArity maxFA targetLen qSize nNodes)).2 =
      ptc2MaxArity maxFA
        (ptc2AdjustTarget minFA maxFA targetLen qSize nNodes
          (ptc2MaxArity maxFA targetLen qSize nNodes)).1 qSize nNodes := by
  have hif : ptc2AdjustTarget minFA maxFA targetLen qSize nNodes
      (ptc2MaxArity maxFA targetLen qSize nNodes) =
      (usub64 targetLen (minFA - ptc2MaxArity maxFA targetLen qSize nNodes),
        ptc2MaxArity maxFA
          (usub64 targetLen (minFA - ptc2MaxArity maxFA targetLen qSize nNodes))
          qSize nNodes) := by
    unfold ptc2AdjustTarget
    rw [if_pos ⟨hma0, hma⟩]
  have hshort : minFA - ptc2MaxArity maxFA targetLen qSize nNodes ≤ targetLen := by
    omega
  have hsub : usub64 targetLen (minFA - ptc2MaxArity maxFA targetLen qSize nNodes) =
      targetLen - (minFA - ptc2MaxArity maxFA targetLen qSize nNodes) :=
    usub64_eq_sub _ _ hshort hL
  rw [hif, hsub]
  exact ⟨rfl, by omega, rfl⟩

/-- C4 witness: the corrected statement at the counterexample's concrete
input: the target length drops from 5 to 4 and the max arity is recomputed
from 4. -/
theorem ptc2_adjust_decreases_witness :
    (ptc2AdjustTarget 2 2 5 1 2 (ptc2MaxArity 2 5 1 2)).1 =
      5 - (2 - ptc2MaxArity 2 5 1 2) ∧
    (ptc2AdjustTarget 2 2 5 1 2 (ptc2MaxArity 2 5 1 2)).1 < 5 ∧
    (ptc2AdjustTarget 2 2 5 1 2 (ptc2MaxArity 2 5 1 2)).2 =
      ptc2MaxArity 2 (ptc2AdjustTarget 2 2 5 1 2 (ptc2MaxArity 2 5 1 2)).1 1 2 :=
  ptc2_adjust_decreases 2 2 5 1 2 (by norm_num) (by decide) (by decide)
    (by decide)

theorem get_set_coefficients_go (cs : List ℚ) (ns : List PNode) :
    ∀ idx, idx + leafCount ns ≤ cs.length →
    Tree.GetCoefficients (setCoefficientsGo cs ns idx) =
      (cs.drop idx).take (leafCount ns) := by
  induction ns with
  | nil =>
    intro idx _
    simp [setCoefficientsGo, Tree.GetCoefficients, leafCount]
  | cons s rest ih =>
    intro idx h
    by_cases hleaf : s.IsLeaf
    · have hlc : leafCount (s :: rest) = leafCount rest + 1 := by
        simp [leafCount, hleaf, Nat.add_comm]
      rw [hlc] at h ⊢
      have hidx : idx < cs.length := by omega
      have hstep : setCoefficientsGo cs (s :: rest) idx =
          { s with value := cs.getD idx 0 } :: setCoefficientsGo cs rest (idx + 1) := by
        simp [setCoefficientsGo, hleaf]
      rw [hstep]
      have hleaf' : ({ s with value := cs.getD idx 0 } : PNode).IsLeaf := by
        simpa [PNode.IsLeaf] using hleaf
      rw [Tree.GetCoefficients, if_pos hleaf']
      rw [ih (idx + 1) (by omega)]
      have hdrop : cs.drop idx = cs.getD idx 0 :: cs.drop (idx + 1) := by
        rw [List.getD_eq_getElem cs 0 hidx]
        exact (List.drop_eq_getElem_cons hidx).symm ▸ rfl
      rw [hdrop]
      simp [List.take_succ_cons]
    · have hlc : leafCount (s :: rest) = leafCount rest := by
        simp [leafCount, hleaf]
      rw [hlc] at h ⊢
      have hstep : setCoefficientsGo cs (s :: rest) idx =
          s :: setCoefficientsGo cs rest idx := by
        simp [setCoefficientsGo, hleaf]
      rw [hstep, Tree.GetCoefficients, if_neg (by simpa using hleaf)]
      exact ih idx h

/-- C9: for a tree with `k` leaves and a coefficient vector of length at
least `k`, `SetCoefficients` followed by `GetCoefficients` returns exactly
the first `k` coefficients, in the left-to-right (postfix array) order of
the leaves. -/
theorem set_then_get_coefficients (ns : List PNode) (cs : List ℚ) (k : Nat)
    (hk : leafCount ns = k) (hlen : k ≤ cs.length) :
    Tree.GetCoefficients (Tree.SetCoefficients ns cs) = cs.take k := by
  subst hk
  unfold Tree.SetCoefficients
  rw [get_set_coefficients_go cs ns 0 (by omega)]
  simp

/-- C9 witness: a three-node layout with two leaves and three
coefficients. -/
theorem set_then_get_coefficients_witness :
    Tree.GetCoefficients
      (Tree.SetCoefficients [{ arity := 0 }, { arity := 0 }, { arity := 2 }]
        [5, 7, 9]) = ([5, 7, 9] : List ℚ).take 2 :=
  set_then_get_coefficients _ _ 2 rfl (by norm_num)

theorem PTree.size_pos (t : PTree) : 0 < t.size := by
  cases t with
  | node cs => simp [PTree.size]

mutual

theorem PTree.arities_length (t : PTree) : t.arities.length = t.size := by
  cases t with
  | node cs =>
    simp [PTree.arities, PTree.size, PTree.aritiesL_length cs]

theorem PTree.aritiesL_length (cs : List PTree) :
    (PTree.aritiesL cs).length = PTree.sizeL cs := by
  cases cs with
  | nil => simp [PTree.aritiesL, PTree.sizeL]
  | cons t ts =>
    simp [PTree.aritiesL, PTree.sizeL, PTree.arities_length t,
      PTree.aritiesL_length ts]

end

mutual

theorem PTree.lens_length (t : PTree) : t.lens.length = t.size := by
  cases t with
  | node cs =>
    simp [PTree.lens, PTree.size, PTree.lensL_length cs]

theorem PTree.lensL_length (cs : List PTree) :
    (PTree.lensL cs).length = PTree.sizeL cs := by
  cases cs with
  | nil => simp [PTree.lensL, PTree.sizeL]
  | cons t ts =>
    simp [PTree.lensL, PTree.sizeL, PTree.lens_length t, PTree.lensL_length ts]

end

/-- Size of a forest in terms of the root descendant counts. -/
theorem PTree.sizeL_eq_sum_rootLen (cs : List PTree) :
    PTree.sizeL cs = (cs.map PTree.rootLen).sum + cs.length := by
  induction cs with
  | nil => simp [PTree.sizeL]
  | cons t ts ih =>
    cases t with
    | node gcs =>
      simp [PTree.sizeL, PTree.size, PTree.rootLen, ih]
      omega

theorem walkLen_eq_sum (ls : List Nat) :
    ∀ k j acc, walkLen ls k j acc =
      acc + ((childIndicesGo ls k j).map (fun c => ls.getD c 0)).sum := by
  intro k
  induction k with
  | zero => intro j acc; simp [walkLen, childIndicesGo]
  | succ k ih =>
    intro j acc
    rw [walkLen, childIndicesGo, ih]
    simp
    omega

theorem passLensFrom_add (A ls : List Nat) (m c1 : Nat) :
    ∀ c2, passLensFrom A ls m (c1 + c2) =
      passLensFrom A (passLensFrom A ls m c1) (m + c1) c2 := by
  intro c2
  induction c2 with
  | zero => simp [passLensFrom]
  | succ c2 ih =>
    have h1 : c1 + (c2 + 1) = (c1 + c2) + 1 := by omega
    rw [h1, passLensFrom, passLensFrom, ih]
    have h2 : m + (c1 + c2) = m + c1 + c2 := by omega
    rw [h2]

theorem passLensFrom_length (A ls : List Nat) (m : Nat) :
    ∀ k, (passLensFrom A ls m k).length = ls.length := by
  intro k
  induction k with
  | zero => rfl
  | succ k ih => rw [passLensFrom, List.length_set, ih]

theorem lget_map_length (ns : List PNode) (j : Nat) :
    (ns.map PNode.length).getD j 0 = (lget ns j).length := by
  induction ns generalizing j with
  | nil => rfl
  | cons a l ih =>
    cases j with
    | zero => simp [lget]
    | succ k =>
      simpa [lget, List.getD_cons_succ] using ih k

theorem lget_map_arity (ns : List PNode) (j : Nat) :
    (ns.map PNode.arity).getD j 0 = (lget ns j).arity := by
  induction ns generalizing j with
  | nil => rfl
  | cons a l ih =>
    cases j with
    | zero => simp [lget]
    | succ k =>
      simpa [lget, List.getD_cons_succ] using ih k

theorem map_set_self (f : PNode → Nat) (ns : List PNode) (j : Nat) (v : PNode)
    (hv : f v = (ns.map f).getD j 0) :
    (ns.map f).set j (f v) = ns.map f := by
  induction ns generalizing j with
  | nil => simp
  | cons a l ih =>
    cases j with
    | zero => simp at hv; simp [hv]
    | succ k =>
      simp only [List.map_cons, List.set_cons_succ]
      rw [ih k (by simpa [List.getD_cons_succ] using hv)]

theorem map_set (f : PNode → Nat) (ns : List PNode) (j : Nat) (v : PNode) :
    (lset ns j v).map f = (ns.map f).set j (f v) := by
  unfold lset
  exact List.map_set

theorem updateWalk_map_length (i : Nat) :
    ∀ k j ns len dep,
      ((updateWalk i k j ns len dep).1.map PNode.length = ns.map PNode.length) ∧
      ((updateWalk i k j ns len dep).1.map PNode.arity = ns.map PNode.arity) ∧
      (updateWalk i k j ns len dep).2.1 =
        walkLen (ns.map PNode.length) k j len := by
  intro k
  induction k with
  | zero => intro j ns len dep; exact ⟨rfl, rfl, rfl⟩
  | succ k ih =>
    intro j ns len dep
    rw [updateWalk, walkLen]
    have hset_len : (lset ns j { lget ns j with parent := i }).map PNode.length =
        ns.map PNode.length := by
      rw [map_set]
      exact map_set_self _ ns j _ (by rw [lget_map_length])
    have hset_ar : (lset ns j { lget ns j with parent := i }).map PNode.arity =
        ns.map PNode.arity := by
      rw [map_set]
      exact map_set_self _ ns j _ (by rw [lget_map_arity])
    have hgd : (ns.map PNode.length).getD j 0 = (lget ns j).length :=
      lget_map_length ns j
    rcases ih (j - ((lget ns j).length + 1))
        (lset ns j { lget ns j with parent := i })
        (len + (lget ns j).length) (max dep (lget ns j).depth) with ⟨h1, h2, h3⟩
    refine ⟨h1.trans hset_len, h2.trans hset_ar, ?_⟩
    rw [h3, hset_len, hgd]

theorem updateAt_map_length (ns : List PNode) (i : Nat) :
    ((updateAt ns i).map PNode.length =
      (ns.map PNode.length).set i
        (stepLen (ns.map PNode.arity) (ns.map PNode.length) i)) ∧
    ((updateAt ns i).map PNode.arity = ns.map PNode.arity) := by
  unfold updateAt
  by_cases h0 : (lget ns i).arity = 0
  · rw [if_pos h0]
    constructor
    · have hz : stepLen (ns.map PNode.arity) (ns.map PNode.length) i = 0 := by
        unfold stepLen
        rw [lget_map_arity, h0]
        rfl
      rw [map_set, hz]
      congr 1
    · rw [map_set]
      exact map_set_self _ ns i _ (by rw [lget_map_arity])
  · rw [if_neg h0]
    rcases updateWalk_map_length i (lget ns i).arity (i - 1) ns (lget ns i).arity 1
      with ⟨h1, h2, h3⟩
    constructor
    · rw [map_set, h1, h3]
      unfold stepLen
      rw [lget_map_arity]
    · rw [map_set, h2]
      exact map_set_self _ ns i _ (by rw [lget_map_arity])

theorem foldl_updateAt_columns (ns : List PNode) :
    ∀ k, (((List.range k).foldl updateAt ns).map PNode.length =
        passLensFrom (ns.map PNode.arity) (ns.map PNode.length) 0 k) ∧
      (((List.range k).foldl updateAt ns).map PNode.arity = ns.map PNode.arity) := by
  intro k
  induction k with
  | zero => exact ⟨rfl, rfl⟩
  | succ k ih =>
    rw [List.range_succ, List.foldl_append]
    rcases ih with ⟨ihl, iha⟩
    rcases updateAt_map_length ((List.range k).foldl updateAt ns) k with ⟨h1, h2⟩
    constructor
    · rw [List.foldl_cons, List.foldl_nil, h1, ihl, iha, passLensFrom]
      simp
    · rw [List.foldl_cons, List.foldl_nil, h2, iha]

theorem updateLevels_map_length (ns : List PNode) :
    ((updateLevels ns).map PNode.length = ns.map PNode.length) ∧
    ((updateLevels ns).map PNode.arity = ns.map PNode.arity) := by
  unfold updateLevels
  cases hl : ns.length with
  | zero => exact ⟨rfl, rfl⟩
  | succ m =>
    have hstep : ∀ (l : List Nat) (acc : List PNode),
        (acc.map PNode.length = ns.map PNode.length ∧
          acc.map PNode.arity = ns.map PNode.arity) →
        ((l.foldl (fun acc j =>
            lset acc j
              { lget acc j with level := (lget acc (lget acc j).parent).level + 1 })
          acc).map PNode.length = ns.map PNode.length ∧
        (l.foldl (fun acc j =>
            lset acc j
              { lget acc j with level := (lget acc (lget acc j).parent).level + 1 })
          acc).map PNode.arity = ns.map PNode.arity) := by
      intro l
      induction l with
      | nil => intro acc h; exact h
      | cons j rest ih =>
        intro acc h
        apply ih
        constructor
        · rw [map_set, map_set_self _ acc j _ (by rw [lget_map_length]), h.1]
        · rw [map_set, map_set_self _ acc j _ (by rw [lget_map_arity]), h.2]
    apply hstep
    constructor
    · rw [map_set, map_set_self _ ns m _ (by rw [lget_map_length])]
    · rw [map_set, map_set_self _ ns m _ (by rw [lget_map_arity])]

/-- Columns of the full `UpdateNodes`. -/
theorem updateNodes_columns (ns : List PNode) :
    ((Tree.UpdateNodes ns).map PNode.length =
      passLensFrom (ns.map PNode.arity) (ns.map PNode.length) 0 ns.length) ∧
    ((Tree.UpdateNodes ns).map PNode.arity = ns.map PNode.arity) := by
  unfold Tree.UpdateNodes
  rcases updateLevels_map_length ((List.range ns.length).foldl updateAt ns)
    with ⟨h1, h2⟩
  rcases foldl_updateAt_columns ns ns.length with ⟨h3, h4⟩
  exact ⟨h1.trans h3, h2.trans h4⟩

theorem PTree.sizeL_append (l1 l2 : List PTree) :
    PTree.sizeL (l1 ++ l2) = PTree.sizeL l1 + PTree.sizeL l2 := by
  induction l1 with
  | nil => simp [PTree.sizeL]
  | cons t ts ih => simp [PTree.sizeL, ih]; omega

theorem PTree.lensL_append (l1 l2 : List PTree) :
    PTree.lensL (l1 ++ l2) = PTree.lensL l1 ++ PTree.lensL l2 := by
  induction l1 with
  | nil => simp [PTree.lensL]
  | cons t ts ih => simp [PTree.lensL, ih]

theorem PTree.aritiesL_append (l1 l2 : List PTree) :
    PTree.aritiesL (l1 ++ l2) = PTree.aritiesL l1 ++ PTree.aritiesL l2 := by
  induction l1 with
  | nil => simp [PTree.aritiesL]
  | cons t ts ih => simp [PTree.aritiesL, ih]

/-- The entry of the forest length column at the root position of an
appended last tree. -/
theorem lensL_getD_root (cs gcs : List PTree) :
    (PTree.lensL (cs ++ [PTree.node gcs])).getD
      (PTree.sizeL cs + PTree.sizeL gcs) 0 = PTree.sizeL gcs := by
  rw [PTree.lensL_append]
  rw [List.getD_append_right _ _ 0 _ (by rw [PTree.lensL_length]; omega)]
  rw [PTree.lensL_length]
  rw [show PTree.sizeL cs + PTree.sizeL gcs - PTree.sizeL cs = PTree.sizeL gcs
    from by omega]
  have h1 : PTree.lensL [PTree.node gcs] =
      PTree.lensL gcs ++ [PTree.sizeL gcs] := by
    simp [PTree.lensL, PTree.lens]
  rw [h1]
  rw [List.getD_append_right _ _ 0 _ (by rw [PTree.lensL_length])]
  rw [PTree.lensL_length, Nat.sub_self]
  rfl

/-- On a length column whose region `[m, m + sizeL cs)` holds the
descendant counts of the forest `cs`, the child walk starting at the last
position of the region visits exactly the root of each tree of `cs` (last
first) and accumulates the sum of the root descendant counts. -/
theorem walkLen_forest (cs : List PTree) :
    ∀ (ls : List Nat) (m : Nat),
      (∀ d, d < PTree.sizeL cs → ls.getD (m + d) 0 = (PTree.lensL cs).getD d 0) →
      ∀ acc, walkLen ls cs.length (m + PTree.sizeL cs - 1) acc =
        acc + (cs.map PTree.rootLen).sum := by
  induction cs using List.reverseRecOn with
  | nil =>
    intro ls m h acc
    simp [PTree.sizeL, walkLen]
  | append_singleton cs c ih =>
    intro ls m h acc
    cases c with
    | node gcs =>
      have hsz : PTree.sizeL (cs ++ [PTree.node gcs]) =
          PTree.sizeL cs + (PTree.sizeL gcs + 1) := by
        rw [PTree.sizeL_append]
        simp [PTree.sizeL, PTree.size]
      have hlen : (cs ++ [PTree.node gcs]).length = cs.length + 1 := by simp
      have hd : PTree.sizeL cs + PTree.sizeL gcs <
          PTree.sizeL (cs ++ [PTree.node gcs]) := by omega
      have hroot : ls.getD (m + (PTree.sizeL cs + PTree.sizeL gcs)) 0 =
          PTree.sizeL gcs := by
        rw [h _ hd]
        exact lensL_getD_root cs gcs
      have hj0 : m + PTree.sizeL (cs ++ [PTree.node gcs]) - 1 =
          m + (PTree.sizeL cs + PTree.sizeL gcs) := by omega
      rw [hlen, hj0, walkLen, hroot]
      have hj1 : m + (PTree.sizeL cs + PTree.sizeL gcs) -
          (PTree.sizeL gcs + 1) = m + PTree.sizeL cs - 1 := by omega
      rw [hj1]
      have hreg : ∀ d, d < PTree.sizeL cs →
          ls.getD (m + d) 0 = (PTree.lensL cs).getD d 0 := by
        intro d hd'
        rw [h d (by omega), PTree.lensL_append,
          List.getD_append _ _ 0 _ (by rw [PTree.lensL_length]; omega)]
      rw [ih ls m hreg]
      simp [PTree.rootLen]
      omega

/-- Companion of `walkLen_forest` for the visited child indices: summing
`value + 1` over the visited roots gives the total node count of the
forest. -/
theorem childWalk_forest (cs : List PTree) :
    ∀ (ls : List Nat) (m : Nat),
      (∀ d, d < PTree.sizeL cs → ls.getD (m + d) 0 = (PTree.lensL cs).getD d 0) →
      ((childIndicesGo ls cs.length (m + PTree.sizeL cs - 1)).map
          (fun c => ls.getD c 0 + 1)).sum = PTree.sizeL cs := by
  induction cs using List.reverseRecOn with
  | nil =>
    intro ls m h
    simp [PTree.sizeL, childIndicesGo]
  | append_singleton cs c ih =>
    intro ls m h
    cases c with
    | node gcs =>
      have hsz : PTree.sizeL (cs ++ [PTree.node gcs]) =
          PTree.sizeL cs + (PTree.sizeL gcs + 1) := by
        rw [PTree.sizeL_append]
        simp [PTree.sizeL, PTree.size]
      have hlen : (cs ++ [PTree.node gcs]).length = cs.length + 1 := by simp
      have hd : PTree.sizeL cs + PTree.sizeL gcs <
          PTree.sizeL (cs ++ [PTree.node gcs]) := by omega
      have hroot : ls.getD (m + (PTree.sizeL cs + PTree.sizeL gcs)) 0 =
          PTree.sizeL gcs := by
        rw [h _ hd]
        exact lensL_getD_root cs gcs
      have hj0 : m + PTree.sizeL (cs ++ [PTree.node gcs]) - 1 =
          m + (PTree.sizeL cs + PTree.sizeL gcs) := by omega
      rw [hlen, hj0, childIndicesGo]
      have hj1 : m + (PTree.sizeL cs + PTree.sizeL gcs) -
          (ls.getD (m + (PTree.sizeL cs + PTree.sizeL gcs)) 0 + 1) =
          m + PTree.sizeL cs - 1 := by rw [hroot]; omega
      rw [hj1]
      have hreg : ∀ d, d < PTree.sizeL cs →
          ls.getD (m + d) 0 = (PTree.lensL cs).getD d 0 := by
        intro d hd'
        rw [h d (by omega), PTree.lensL_append,
          List.getD_append _ _ 0 _ (by rw [PTree.lensL_length]; omega)]
      rw [List.map_cons, List.sum_cons, ih ls m hreg, hroot]
      omega

theorem getD_set_self (l : List Nat) (i v : Nat) (h : i < l.length) :
    (l.set i v).getD i 0 = v := by
  simp [List.getD, List.getElem?_set_self, h]

theorem getD_set_ne (l : List Nat) (i j v : Nat) (h : i ≠ j) :
    (l.set i v).getD j 0 = l.getD j 0 := by
  simp [List.getD, List.getElem?_set_ne h]

theorem aritiesL_cons_eq (gcs cs' : List PTree) :
    PTree.aritiesL (PTree.node gcs :: cs') =
      (PTree.aritiesL gcs ++ [gcs.length]) ++ PTree.aritiesL cs' := by
  simp [PTree.aritiesL, PTree.arities]

theorem lensL_cons_eq (gcs cs' : List PTree) :
    PTree.lensL (PTree.node gcs :: cs') =
      (PTree.lensL gcs ++ [PTree.sizeL gcs]) ++ PTree.lensL cs' := by
  simp [PTree.lensL, PTree.lens]

theorem aritiesL_cons_getD_lt (gcs cs' : List PTree) (d : Nat)
    (hd : d < PTree.sizeL gcs) :
    (PTree.aritiesL (PTree.node gcs :: cs')).getD d 0 =
      (PTree.aritiesL gcs).getD d 0 := by
  rw [aritiesL_cons_eq]
  rw [List.getD_append _ _ 0 _
    (by rw [List.length_append, PTree.aritiesL_length]; simp; omega)]
  rw [List.getD_append _ _ 0 _ (by rw [PTree.aritiesL_length]; omega)]

theorem aritiesL_cons_getD_root (gcs cs' : List PTree) :
    (PTree.aritiesL (PTree.node gcs :: cs')).getD (PTree.sizeL gcs) 0 =
      gcs.length := by
  rw [aritiesL_cons_eq]
  rw [List.getD_append _ _ 0 _
    (by rw [List.length_append, PTree.aritiesL_length]; simp)]
  rw [List.getD_append_right _ _ 0 _ (by rw [PTree.aritiesL_length])]
  rw [PTree.aritiesL_length, Nat.sub_self]
  rfl

theorem aritiesL_cons_getD_ge (gcs cs' : List PTree) (d : Nat)
    (hd : PTree.sizeL gcs + 1 ≤ d) :
    (PTree.aritiesL (PTree.node gcs :: cs')).getD d 0 =
      (PTree.aritiesL cs').getD (d - (PTree.sizeL gcs + 1)) 0 := by
  rw [aritiesL_cons_eq]
  rw [List.getD_append_right _ _ 0 _
    (by rw [List.length_append, PTree.aritiesL_length]; simp; omega)]
  rw [List.length_append, PTree.aritiesL_length]
  simp

theorem lensL_cons_getD_lt (gcs cs' : List PTree) (d : Nat)
    (hd : d < PTree.sizeL gcs) :
    (PTree.lensL (PTree.node gcs :: cs')).getD d 0 =
      (PTree.lensL gcs).getD d 0 := by
  rw [lensL_cons_eq]
  rw [List.getD_append _ _ 0 _
    (by rw [List.length_append, PTree.lensL_length]; simp; omega)]
  rw [List.getD_append _ _ 0 _ (by rw [PTree.lensL_length]; omega)]

theorem lensL_cons_getD_root (gcs cs' : List PTree) :
    (PTree.lensL (PTree.node gcs :: cs')).getD (PTree.sizeL gcs) 0 =
      PTree.sizeL gcs := by
  rw [lensL_cons_eq]
  rw [List.getD_append _ _ 0 _
    (by rw [List.length_append, PTree.lensL_length]; simp)]
  rw [List.getD_append_right _ _ 0 _ (by rw [PTree.lensL_length])]
  rw [PTree.lensL_length, Nat.sub_self]
  rfl

theorem lensL_cons_getD_ge (gcs cs' : List PTree) (d : Nat)
    (hd : PTree.sizeL gcs + 1 ≤ d) :
    (PTree.lensL (PTree.node gcs :: cs')).getD d 0 =
      (PTree.lensL cs').getD (d - (PTree.sizeL gcs + 1)) 0 := by
  rw [lensL_cons_eq]
  rw [List.getD_append_right _ _ 0 _
    (by rw [List.length_append, PTree.lensL_length]; simp; omega)]
  rw [List.length_append, PTree.lensL_length]
  simp

/-- Main invariant of the first pass: processing the region of a forest
whose arity column matches the layout rewrites exactly that region of the
length column with the forest's descendant counts and touches nothing
else. -/
theorem passLens_forest_aux : ∀ (n : Nat) (cs : List PTree),
    PTree.sizeL cs = n →
    ∀ (A ls : List Nat) (m : Nat),
      m + PTree.sizeL cs ≤ ls.length →
      (∀ d, d < PTree.sizeL cs →
        A.getD (m + d) 0 = (PTree.aritiesL cs).getD d 0) →
      ∀ j, (passLensFrom A ls m (PTree.sizeL cs)).getD j 0 =
        if m ≤ j ∧ j < m + PTree.sizeL cs then (PTree.lensL cs).getD (j - m) 0
        else ls.getD j 0 := by
  intro n
  induction n using Nat.strong_induction_on with
  | _ n ih =>
    intro cs hn A ls m hlen hA j
    match cs with
    | [] =>
      rw [show PTree.sizeL ([] : List PTree) = 0 from rfl, passLensFrom]
      have hj : ¬ (m ≤ j ∧ j < m + 0) := by omega
      rw [if_neg hj]
    | (PTree.node gcs) :: cs' =>
      have hsplit : PTree.sizeL (PTree.node gcs :: cs') =
          (PTree.sizeL gcs + 1) + PTree.sizeL cs' := by
        simp [PTree.sizeL, PTree.size]
      have hlt1 : PTree.sizeL gcs < n := by
        rw [← hn]; omega
      have hlt2 : PTree.sizeL cs' < n := by
        rw [← hn]; omega
      -- the grandchildren region
      have ihg := ih (PTree.sizeL gcs) hlt1 gcs rfl A ls m (by omega)
        (by
          intro d hd
          rw [hA d (by omega), aritiesL_cons_getD_lt gcs cs' d hd])
      -- abbreviations
      have hstep1len : (passLensFrom A ls m (PTree.sizeL gcs)).length = ls.length :=
        passLensFrom_length A ls m _
      -- the root step
      have harityroot : A.getD (m + PTree.sizeL gcs) 0 = gcs.length := by
        rw [hA (PTree.sizeL gcs) (by omega), aritiesL_cons_getD_root]
      have hwalk : stepLen A (passLensFrom A ls m (PTree.sizeL gcs))
          (m + PTree.sizeL gcs) = PTree.sizeL gcs := by
        unfold stepLen
        rw [harityroot]
        rw [walkLen_forest gcs (passLensFrom A ls m (PTree.sizeL gcs)) m
          (by
            intro d hd
            rw [ihg (m + d), if_pos (by omega)]
            have : m + d - m = d := by omega
            rw [this])
          gcs.length]
        have hsum := PTree.sizeL_eq_sum_rootLen gcs
        omega
      -- peel the region into grandchildren, root, and the remaining forest
      rw [hsplit, passLensFrom_add]
      have hunfold : passLensFrom A ls m (PTree.sizeL gcs + 1) =
          (passLensFrom A ls m (PTree.sizeL gcs)).set (m + PTree.sizeL gcs)
            (stepLen A (passLensFrom A ls m (PTree.sizeL gcs))
              (m + PTree.sizeL gcs)) := rfl
      rw [hunfold, hwalk]
      have hstep2len :
          ((passLensFrom A ls m (PTree.sizeL gcs)).set (m + PTree.sizeL gcs)
            (PTree.sizeL gcs)).length = ls.length := by
        rw [List.length_set, hstep1len]
      have ihc := ih (PTree.sizeL cs') hlt2 cs' rfl A
        ((passLensFrom A ls m (PTree.sizeL gcs)).set (m + PTree.sizeL gcs)
          (PTree.sizeL gcs))
        (m + (PTree.sizeL gcs + 1)) (by omega)
        (by
          intro d hd
          have h1 : m + (PTree.sizeL gcs + 1) + d = m + (PTree.sizeL gcs + 1 + d) := by
            omega
          rw [h1, hA (PTree.sizeL gcs + 1 + d) (by omega),
            aritiesL_cons_getD_ge gcs cs' _ (by omega)]
          have h2 : PTree.sizeL gcs + 1 + d - (PTree.sizeL gcs + 1) = d := by omega
          rw [h2])
      rw [ihc j]
      by_cases hc1 : m + (PTree.sizeL gcs + 1) ≤ j ∧
          j < m + (PTree.sizeL gcs + 1) + PTree.sizeL cs'
      · rw [if_pos hc1, if_pos (by omega)]
        rw [lensL_cons_getD_ge gcs cs' (j - m) (by omega)]
        have : j - m - (PTree.sizeL gcs + 1) = j - (m + (PTree.sizeL gcs + 1)) := by
          omega
        rw [this]
      · rw [if_neg hc1]
        by_cases hc2 : j = m + PTree.sizeL gcs
        · subst hc2
          rw [getD_set_self _ _ _ (by omega)]
          rw [if_pos (by omega)]
          have : m + PTree.sizeL gcs - m = PTree.sizeL gcs := by omega
          rw [this, lensL_cons_getD_root]
        · rw [getD_set_ne _ _ _ _ (fun hh => hc2 hh.symm)]
          rw [ihg j]
          by_cases hc3 : m ≤ j ∧ j < m + PTree.sizeL gcs
          · rw [if_pos hc3, if_pos (by omega)]
            rw [lensL_cons_getD_lt gcs cs' (j - m) (by omega)]
          · rw [if_neg hc3, if_neg (by omega)]

/-- Every internal position of a forest layout is the root of a subtree:
its arity is the number of child trees `gcs`, its descendant count is
`sizeL gcs`, and the region `[d - sizeL gcs, d)` of the length column holds
the descendant counts of `gcs`. -/
theorem position_subforest_aux : ∀ (n : Nat) (cs : List PTree),
    PTree.sizeL cs = n →
    ∀ d, d < PTree.sizeL cs → 0 < (PTree.aritiesL cs).getD d 0 →
    ∃ gcs : List PTree,
      (PTree.aritiesL cs).getD d 0 = gcs.length ∧
      (PTree.lensL cs).getD d 0 = PTree.sizeL gcs ∧
      PTree.sizeL gcs ≤ d ∧
      (∀ e, e < PTree.sizeL gcs →
        (PTree.lensL cs).getD (d - PTree.sizeL gcs + e) 0 =
          (PTree.lensL gcs).getD e 0) := by
  intro n
  induction n using Nat.strong_induction_on with
  | _ n ih =>
    intro cs hn d hd har
    match cs with
    | [] =>
      rw [show PTree.sizeL ([] : List PTree) = 0 from rfl] at hd
      omega
    | (PTree.node gcs0) :: cs' =>
      have hsplit : PTree.sizeL (PTree.node gcs0 :: cs') =
          (PTree.sizeL gcs0 + 1) + PTree.sizeL cs' := by
        simp [PTree.sizeL, PTree.size]
      have hlt1 : PTree.sizeL gcs0 < n := by rw [← hn]; omega
      have hlt2 : PTree.sizeL cs' < n := by rw [← hn]; omega
      by_cases hc1 : d < PTree.sizeL gcs0
      · rcases ih (PTree.sizeL gcs0) hlt1 gcs0 rfl d hc1
          (by rw [← aritiesL_cons_getD_lt gcs0 cs' d hc1]; exact har) with
          ⟨gcs, hg1, hg2, hg3, hg4⟩
        refine ⟨gcs, ?_, ?_, hg3, ?_⟩
        · rw [aritiesL_cons_getD_lt gcs0 cs' d hc1]; exact hg1
        · rw [lensL_cons_getD_lt gcs0 cs' d hc1]; exact hg2
        · intro e he
          rw [lensL_cons_getD_lt gcs0 cs' _ (by omega)]
          exact hg4 e he
      · by_cases hc2 : d = PTree.sizeL gcs0
        · subst hc2
          refine ⟨gcs0, aritiesL_cons_getD_root gcs0 cs',
            lensL_cons_getD_root gcs0 cs', Nat.le_refl _, ?_⟩
          intro e he
          rw [Nat.sub_self, Nat.zero_add, lensL_cons_getD_lt gcs0 cs' e he]
        · have hge : PTree.sizeL gcs0 + 1 ≤ d := by omega
          have hd' : d - (PTree.sizeL gcs0 + 1) < PTree.sizeL cs' := by omega
          rcases ih (PTree.sizeL cs') hlt2 cs' rfl (d - (PTree.sizeL gcs0 + 1)) hd'
            (by rw [← aritiesL_cons_getD_ge gcs0 cs' d hge]; exact har) with
            ⟨gcs, hg1, hg2, hg3, hg4⟩
          refine ⟨gcs, ?_, ?_, by omega, ?_⟩
          · rw [aritiesL_cons_getD_ge gcs0 cs' d hge]; exact hg1
          · rw [lensL_cons_getD_ge gcs0 cs' d hge]; exact hg2
          · intro e he
            rw [lensL_cons_getD_ge gcs0 cs' _ (by omega)]
            have harith : d - PTree.sizeL gcs + e - (PTree.sizeL gcs0 + 1) =
                d - (PTree.sizeL gcs0 + 1) - PTree.sizeL gcs + e := by omega
            rw [harith]
            exact hg4 e he

theorem PTree.sizeL_singleton (t : PTree) : PTree.sizeL [t] = t.size := by
  simp [PTree.sizeL]

theorem PTree.aritiesL_singleton (t : PTree) : PTree.aritiesL [t] = t.arities := by
  simp [PTree.aritiesL]

theorem PTree.lensL_singleton (t : PTree) : PTree.lensL [t] = t.lens := by
  simp [PTree.lensL]

theorem PTree.sizeL_pos_of_ne_nil (cs : List PTree) (h : cs ≠ []) :
    0 < PTree.sizeL cs := by
  cases cs with
  | nil => exact absurd rfl h
  | cons t ts =>
    have := PTree.size_pos t
    simp [PTree.sizeL]
    omega

/-- C5: on a valid postfix layout (the node arities are the arity column of
a rose tree `t`), after `UpdateNodes` the `length` column equals the
per-node descendant counts of `t`; moreover every internal node `i`
satisfies `length i = Σ over its children of (child.length + 1)` (children
found by the source's back-jump walk) and `length i ≤ i`, so
`length i = i - first_descendant_index i` with
`first_descendant_index i = i - length i`. -/
theorem updateNodes_length_invariant (t : PTree) (ns : List PNode)
    (hA : ns.map PNode.arity = t.arities) :
    (Tree.UpdateNodes ns).map PNode.length = t.lens ∧
    (∀ i, i < ns.length →
      0 < (lget (Tree.UpdateNodes ns) i).arity →
      ((childIndices (Tree.UpdateNodes ns) i).map
          (fun c => (lget (Tree.UpdateNodes ns) c).length + 1)).sum =
        (lget (Tree.UpdateNodes ns) i).length ∧
      (lget (Tree.UpdateNodes ns) i).length ≤ i) := by
  have hlen_ns : ns.length = t.size := by
    have h := congrArg List.length hA
    simpa [PTree.arities_length] using h
  rcases updateNodes_columns ns with ⟨hcol_len, hcol_ar⟩
  have hsz : PTree.sizeL [t] = ns.length := by
    rw [PTree.sizeL_singleton, hlen_ns]
  have hforest := passLens_forest_aux (PTree.sizeL [t]) [t] rfl
    (ns.map PNode.arity) (ns.map PNode.length) 0
    (by rw [hsz]; simp)
    (by
      intro d hd
      rw [PTree.aritiesL_singleton, hA]
      simp)
  rw [hsz] at hforest
  have key : ∀ j, j < ns.length →
      (passLensFrom (ns.map PNode.arity) (ns.map PNode.length) 0
        ns.length).getD j 0 = t.lens.getD j 0 := by
    intro j hj
    rw [hforest j, if_pos (by omega), PTree.lensL_singleton]
    simp
  have hpart1 : (Tree.UpdateNodes ns).map PNode.length = t.lens := by
    rw [hcol_len]
    apply List.ext_getElem
    · rw [passLensFrom_length]
      simp [PTree.lens_length, hlen_ns]
    · intro j h1 h2
      rw [← List.getD_eq_getElem _ 0 h1, ← List.getD_eq_getElem _ 0 h2]
      apply key
      rw [passLensFrom_length, List.length_map] at h1
      exact h1
  refine ⟨hpart1, ?_⟩
  intro i hi har
  have hari : (lget (Tree.UpdateNodes ns) i).arity = t.arities.getD i 0 := by
    rw [← lget_map_arity, hcol_ar, hA]
  have hleni : ∀ c, (lget (Tree.UpdateNodes ns) c).length = t.lens.getD c 0 := by
    intro c
    rw [← lget_map_length, hpart1]
  have hpos := position_subforest_aux (PTree.sizeL [t]) [t] rfl i
    (by omega)
    (by
      rw [PTree.aritiesL_singleton, ← hari]
      exact har)
  rcases hpos with ⟨gcs, hg1, hg2, hg3, hg4⟩
  rw [PTree.aritiesL_singleton] at hg1
  rw [PTree.lensL_singleton] at hg2
  have hg4' : ∀ e, e < PTree.sizeL gcs →
      t.lens.getD (i - PTree.sizeL gcs + e) 0 = (PTree.lensL gcs).getD e 0 := by
    intro e he
    rw [← PTree.lensL_singleton t]
    exact hg4 e he
  have hszpos : 0 < PTree.sizeL gcs := by
    rcases gcs with _ | ⟨g, gs⟩
    · exfalso
      rw [hari, hg1] at har
      simp at har
    · exact PTree.sizeL_pos_of_ne_nil _ (by simp)
  have hwalk := childWalk_forest gcs t.lens (i - PTree.sizeL gcs) hg4'
  have hstart : i - PTree.sizeL gcs + PTree.sizeL gcs - 1 = i - 1 := by omega
  rw [hstart] at hwalk
  have hci : childIndices (Tree.UpdateNodes ns) i =
      childIndicesGo t.lens gcs.length (i - 1) := by
    unfold childIndices
    rw [hpart1, hari, hg1]
  constructor
  · rw [hci]
    have hfun : (fun c => (lget (Tree.UpdateNodes ns) c).length + 1) =
        (fun c => t.lens.getD c 0 + 1) := by
      funext c
      rw [hleni c]
    rw [hfun, hwalk, hleni i, hg2]
  · rw [hleni i, hg2]
    omega

/-- C5 witness: the layout `[leaf, leaf, binary root]` of the tree with two
leaf children; the back-jump sum and descendant-count facts hold after
`UpdateNodes`. -/
theorem updateNodes_length_invariant_witness :
    (Tree.UpdateNodes
        [{ arity := 0 }, { arity := 0 }, { arity := 2 }]).map PNode.length =
      (PTree.node [PTree.node [], PTree.node []]).lens ∧
    (∀ i, i < ([{ arity := 0 }, { arity := 0 }, { arity := 2 }] :
        List PNode).length →
      0 < (lget (Tree.UpdateNodes
          [{ arity := 0 }, { arity := 0 }, { arity := 2 }]) i).arity →
      ((childIndices (Tree.UpdateNodes
            [{ arity := 0 }, { arity := 0 }, { arity := 2 }]) i).map
          (fun c => (lget (Tree.UpdateNodes
            [{ arity := 0 }, { arity := 0 }, { arity := 2 }]) c).length + 1)).sum =
        (lget (Tree.UpdateNodes
          [{ arity := 0 }, { arity := 0 }, { arity := 2 }]) i).length ∧
      (lget (Tree.UpdateNodes
        [{ arity := 0 }, { arity := 0 }, { arity := 2 }]) i).length ≤ i) :=
  updateNodes_length_invariant (PTree.node [PTree.node [], PTree.node []])
    [{ arity := 0 }, { arity := 0 }, { arity := 2 }] (by rfl)

theorem hierScan_count (pop : List (List ℚ)) (q1 : Nat) :
    ∀ fuel q d (x : Nat),
      ((hierScan pop q1 fuel q d).1.count x) +
        ((hierScan pop q1 fuel q d).2.count x) = q.count x + d.count x := by
  intro fuel
  induction fuel with
  | zero => intro q d x; rfl
  | succ fuel ih =>
    intro q d x
    match q with
    | [] => rfl
    | qj :: rest =>
      rw [hierScan]
      split
      · rw [ih (rest ++ [qj]) d x]
        simp [List.count_append, List.count_cons]
        try omega
      · rw [ih rest (d ++ [qj]) x]
        simp [List.count_append, List.count_cons]
        try omega

theorem hierScan_len_le (pop : List (List ℚ)) (q1 : Nat) :
    ∀ fuel q d, (hierScan pop q1 fuel q d).1.length ≤ q.length := by
  intro fuel
  induction fuel with
  | zero => intro q d; exact Nat.le_refl _
  | succ fuel ih =>
    intro q d
    match q with
    | [] => exact Nat.le_refl _
    | qj :: rest =>
      rw [hierScan]
      split
      · have h := ih (rest ++ [qj]) d
        simp at h ⊢
        omega
      · have h := ih rest (d ++ [qj])
        simp at h ⊢
        omega

theorem hierScan_len_sum (pop : List (List ℚ)) (q1 : Nat) :
    ∀ fuel q d, (hierScan pop q1 fuel q d).1.length +
      (hierScan pop q1 fuel q d).2.length = q.length + d.length := by
  intro fuel
  induction fuel with
  | zero => intro q d; rfl
  | succ fuel ih =>
    intro q d
    match q with
    | [] => rfl
    | qj :: rest =>
      rw [hierScan]
      split
      · have h := ih (rest ++ [qj]) d
        simp at h ⊢
        omega
      · have h := ih rest (d ++ [qj])
        simp at h ⊢
        omega

theorem hierInner_count (pop : List (List ℚ)) :
    ∀ fuel q d front (x : Nat), q.length ≤ fuel →
      ((hierInner pop fuel q d front).1.count x) +
        ((hierInner pop fuel q d front).2.count x) =
      front.count x + q.count x + d.count x := by
  intro fuel
  induction fuel with
  | zero =>
    intro q d front x hf
    have hq : q = [] := List.length_eq_zero.mp (by omega)
    subst hq
    rw [hierInner]
    simp
  | succ fuel ih =>
    intro q d front x hf
    match q with
    | [] => rw [hierInner]; simp
    | q1 :: rest =>
      rw [hierInner]
      have hlen := hierScan_len_le pop q1 rest.length rest d
      have h := ih (hierScan pop q1 rest.length rest d).1
        (hierScan pop q1 rest.length rest d).2 (front ++ [q1]) x
        (by simp at hf; omega)
      rw [h]
      have hsc := hierScan_count pop q1 rest.length rest d x
      simp [List.count_append, List.count_cons] at *
      omega

theorem hierInner_len_sum (pop : List (List ℚ)) :
    ∀ fuel q d front, q.length ≤ fuel →
      (hierInner pop fuel q d front).1.length +
        (hierInner pop fuel q d front).2.length =
      front.length + q.length + d.length := by
  intro fuel
  induction fuel with
  | zero =>
    intro q d front hf
    have hq : q = [] := List.length_eq_zero.mp (by omega)
    subst hq
    rw [hierInner]
    simp
  | succ fuel ih =>
    intro q d front hf
    match q with
    | [] => rw [hierInner]; simp
    | q1 :: rest =>
      rw [hierInner]
      have hlen := hierScan_len_le pop q1 rest.length rest d
      have h := ih (hierScan pop q1 rest.length rest d).1
        (hierScan pop q1 rest.length rest d).2 (front ++ [q1])
        (by simp at hf; omega)
      rw [h]
      have hsc := hierScan_len_sum pop q1 rest.length rest d
      simp at *
      omega

theorem hierInner_front_le (pop : List (List ℚ)) :
    ∀ fuel q d front, front.length ≤ (hierInner pop fuel q d front).1.length := by
  intro fuel
  induction fuel with
  | zero => intro q d front; exact Nat.le_refl _
  | succ fuel ih =>
    intro q d front
    match q with
    | [] => exact Nat.le_refl _
    | q1 :: rest =>
      rw [hierInner]
      have h := ih (hierScan pop q1 rest.length rest d).1
        (hierScan pop q1 rest.length rest d).2 (front ++ [q1])
      simp at h
      omega

theorem sortBy_count {α : Type} [DecidableEq α] (le : α → α → Bool)
    (l : List α) (x : α) : (sortBy le l).count x = l.count x :=
  (sortBy_perm le l).count_eq x

theorem sortBy_length {α : Type} (le : α → α → Bool) (l : List α) :
    (sortBy le l).length = l.length :=
  (sortBy_perm le l).length_eq

theorem hierOuter_count (pop : List (List ℚ)) :
    ∀ fuel q fronts (x : Nat), q.length ≤ fuel →
      ((hierOuter pop fuel q fronts).map (fun fr => fr.count x)).sum =
        (fronts.map (fun fr => fr.count x)).sum + q.count x := by
  intro fuel
  induction fuel with
  | zero =>
    intro q fronts x hf
    have hq : q = [] := List.length_eq_zero.mp (by omega)
    subst hq
    rw [hierOuter]
    simp
  | succ fuel ih =>
    intro q fronts x hf
    match q with
    | [] => rw [hierOuter]; simp
    | q1 :: rest =>
      rw [hierOuter]
      simp only [List.length_cons] at hf ⊢
      have hfrontlen :
          1 ≤ (hierInner pop (rest.length + 1) (q1 :: rest) [] []).1.length := by
        rw [hierInner]
        have h := hierInner_front_le pop rest.length
          (hierScan pop q1 rest.length rest []).1
          (hierScan pop q1 rest.length rest []).2 ([] ++ [q1])
        simpa using h
      have hlensum := hierInner_len_sum pop (rest.length + 1) (q1 :: rest) [] []
        (by simp)
      simp only [List.length_nil, List.length_cons] at hlensum
      have hreclen : (hierRequeue pop
          (hierInner pop (rest.length + 1) (q1 :: rest) [] []).2).length ≤ fuel := by
        unfold hierRequeue
        rw [sortBy_length]
        omega
      rw [ih _ _ x hreclen]
      have hcnt := hierInner_count pop (rest.length + 1) (q1 :: rest) [] [] x
        (by simp)
      simp only [List.count_nil, Nat.add_zero, Nat.zero_add] at hcnt
      unfold hierRequeue
      rw [sortBy_count]
      rw [List.map_append, List.sum_append]
      simp only [List.map_cons, List.map_nil, List.sum_cons, List.sum_nil]
      omega

theorem hierOuter_nonempty (pop : List (List ℚ)) :
    ∀ fuel q fronts, (∀ f ∈ fronts, f ≠ []) →
      ∀ f ∈ hierOuter pop fuel q fronts, f ≠ [] := by
  intro fuel
  induction fuel with
  | zero => intro q fronts h; exact h
  | succ fuel ih =>
    intro q fronts h
    match q with
    | [] => exact h
    | q1 :: rest =>
      rw [hierOuter]
      apply ih
      intro f hfm
      rcases List.mem_append.mp hfm with hf1 | hf2
      · exact h f hf1
      · have hfeq : f = (hierInner pop (q1 :: rest).length (q1 :: rest) [] []).1 := by
          simpa using hf2
        simp only [List.length_cons] at hfeq
        have hfrontlen :
            1 ≤ (hierInner pop (rest.length + 1) (q1 :: rest) [] []).1.length := by
          rw [hierInner]
          have hh := hierInner_front_le pop rest.length
            (hierScan pop q1 rest.length rest []).1
            (hierScan pop q1 rest.length rest []).2 ([] ++ [q1])
          simpa using hh
        rw [hfeq]
        intro hnil
        rw [hnil] at hfrontlen
        simp at hfrontlen

/-- C8: for every population (with multi-objective fitness, as
`NondominatedSorterBase::operator()` requires via `ENSURE(m > 1)`), the
fronts produced by `HierarchicalSorter::Sort` partition the population:
every index below `n` occurs exactly once across all fronts, no index
outside `0 .. n-1` occurs, and no front is empty. -/
theorem hierSort_partition (pop : List (List ℚ))
    (hm : ∀ f ∈ pop, 2 ≤ f.length) :
    (∀ i, i < pop.length →
      ((HierarchicalSorter.Sort pop).map (fun fr => fr.count i)).sum = 1) ∧
    (∀ i, pop.length ≤ i →
      ((HierarchicalSorter.Sort pop).map (fun fr => fr.count i)).sum = 0) ∧
    (∀ fr ∈ HierarchicalSorter.Sort pop, fr ≠ []) := by
  unfold HierarchicalSorter.Sort
  refine ⟨?_, ?_, ?_⟩
  · intro i hi
    rw [hierOuter_count pop pop.length (hierInitQueue pop) [] i
      (by rw [hierInitQueue, List.length_range])]
    have hcnt : (hierInitQueue pop).count i = 1 := by
      rw [hierInitQueue]
      exact List.count_eq_one_of_mem (List.nodup_range _) (List.mem_range.mpr hi)
    rw [hcnt]
    simp
  · intro i hi
    rw [hierOuter_count pop pop.length (hierInitQueue pop) [] i
      (by rw [hierInitQueue, List.length_range])]
    have hcnt : (hierInitQueue pop).count i = 0 := by
      rw [hierInitQueue, List.count_eq_zero]
      intro hmem
      exact absurd (List.mem_range.mp hmem) (by omega)
    rw [hcnt]
    simp
  · exact hierOuter_nonempty pop pop.length (hierInitQueue pop) [] (by simp)

/-- C8 witness: the spec's five-individual example population. -/
theorem hierSort_partition_witness :
    (∀ i, i < ([[1, 4], [2, 3], [3, 2], [4, 1], [2, 2]] : List (List ℚ)).length →
      ((HierarchicalSorter.Sort [[1, 4], [2, 3], [3, 2], [4, 1], [2, 2]]).map
          (fun fr => fr.count i)).sum = 1) ∧
    (∀ i, ([[1, 4], [2, 3], [3, 2], [4, 1], [2, 2]] : List (List ℚ)).length ≤ i →
      ((HierarchicalSorter.Sort [[1, 4], [2, 3], [3, 2], [4, 1], [2, 2]]).map
          (fun fr => fr.count i)).sum = 0) ∧
    (∀ fr ∈ HierarchicalSorter.Sort [[1, 4], [2, 3], [3, 2], [4, 1], [2, 2]],
      fr ≠ []) :=
  hierSort_partition [[1, 4], [2, 3], [3, 2], [4, 1], [2, 2]] (by decide)

/-- C2 counterexample: for the population `[(2,2), (1,1)]` the initial
queue the source builds (`std::iota`, hierarchical_sort.cpp:10-11) is
`[0, 1]`, not the lexicographically-sorted-by-fitness queue `[1, 0]` the
claim describes. -/
theorem hier_init_queue_claim_false :
    hierInitQueue [[2, 2], [1, 1]] ≠ hierInitQueueSpec [[2, 2], [1, 1]] := by
  decide

/-- C2 corrected: the initial candidate queue holds `0 .. n-1` in *index*
order — no sorting happens before the first front is extracted (the
lexicographic sort is applied only to requeued dominated candidates
between fronts); the initial queue is in lexicographic fitness order only
when the population itself already is. -/
theorem hier_init_queue_index_order (pop : List (List ℚ)) :
    hierInitQueue pop = List.range pop.length ∧
    ((∀ i j, i < j → j < pop.length →
        lexLess (pop.getD j []) (pop.getD i []) = false) →
      (hierInitQueue pop).Pairwise
        (fun i j => lexLess (pop.getD j []) (pop.getD i []) = false)) := by
  refine ⟨rfl, ?_⟩
  intro hsorted
  rw [hierInitQueue]
  have hp : (List.range pop.length).Pairwise (· < ·) := List.pairwise_lt_range _
  apply List.Pairwise.imp_of_mem ?_ hp
  intro a b ha hb hab
  exact hsorted a b hab (List.mem_range.mp hb)

/-- C2 witness: the index-order fact and, on an already lex-sorted
two-individual population, the sortedness of the initial queue. -/
theorem hier_init_queue_index_order_witness :
    hierInitQueue [[1, 1], [2, 2]] =
      List.range ([[1, 1], [2, 2]] : List (List ℚ)).length ∧
    (hierInitQueue [[1, 1], [2, 2]]).Pairwise
      (fun i j => lexLess (([[1, 1], [2, 2]] : List (List ℚ)).getD j [])
        (([[1, 1], [2, 2]] : List (List ℚ)).getD i []) = false) :=
  ⟨(hier_init_queue_index_order [[1, 1], [2, 2]]).1,
   (hier_init_queue_index_order [[1, 1], [2, 2]]).2
    (by
      intro i j hij hj
      have hj1 : j = 1 := by
        simp at hj
        omega
      have hi0 : i = 0 := by omega
      subst hj1
      subst hi0
      decide)⟩

theorem initLeaf_arity {σ : Type} (R : CreatorRand σ) (vars : List Nat)
    (nd : PNode) (s : σ) : ((initLeaf R vars nd s).1).arity = nd.arity := by
  unfold initLeaf
  by_cases h1 : nd.IsLeaf
  · rw [if_pos h1]
    by_cases h2 : nd.isVariable
    · simp [h2]
    · simp [h2]
  · rw [if_neg h1]

theorem updateNodes_singleton (x : PNode) (hx : x.arity = 0) :
    Tree.UpdateNodes [x] = [{ x with depth := 1, length := 0, level := 1 }] := by
  unfold Tree.UpdateNodes
  rw [show ([x] : List PNode).length = 1 from rfl,
    show List.range 1 = [0] from rfl, List.foldl_cons, List.foldl_nil]
  have h2 : updateAt [x] 0 = [{ x with depth := 1, length := 0 }] := by
    unfold updateAt
    rw [if_pos (by simpa [lget] using hx)]
    simp [lget, lset, hx]
  rw [h2]
  unfold updateLevels
  simp [lget, lset]

theorem usub64_one_one : usub64 1 1 = 0 := by
  unfold usub64
  norm_num

/-- C6: with any RNG, and any primitive set containing at least one
enabled leaf type (arity window reaching 0), both creators called with
`target_length = 1` return a tree of exactly one node whose `length` is
0.  The sampler is an arbitrary function satisfying the spec's
`SampleRandomSymbol` contract. -/
theorem creators_single_leaf {σ : Type} (R : CreatorRand σ)
    (ps : PrimitiveSet) (vars : List Nat) (s : σ)
    (hsound : SampleSound R) (hcomplete : SampleComplete ps R)
    (hleaf : ∃ p ∈ ps.prims, p.enabled = true ∧ p.minArity = 0) :
    (∃ t, BalancedTreeCreator.create R vars ps s 1 = some t ∧
      t.length = 1 ∧ ∀ nd ∈ t, nd.length = 0) ∧
    (∃ t, ProbabilisticTreeCreator.create R vars ps s 1 = some t ∧
      t.length = 1 ∧ ∀ nd ∈ t, nd.length = 0) := by
  have hwin : ∃ p ∈ ps.prims, p.enabled = true ∧
      max p.minArity 0 ≤ min p.maxArity 0 := by
    rcases hleaf with ⟨p, hp, hen, h0⟩
    exact ⟨p, hp, hen, by rw [h0]; simp⟩
  have hsome := hcomplete 0 0 s hwin
  rcases Option.isSome_iff_exists.mp hsome with ⟨pr, hpr⟩
  rcases pr with ⟨nd, s'⟩
  have hnd0 : nd.arity = 0 := by
    rcases hsound 0 0 s nd s' hpr with ⟨_, h2⟩
    omega
  have hinit := initLeaf_arity R vars nd s'
  have hleafB : ((initLeaf R vars nd s').1).IsLeaf = true := by
    rw [PNode.IsLeaf, hinit, hnd0]
    rfl
  have hup := updateNodes_singleton (initLeaf R vars nd s').1
    (by rw [hinit]; exact hnd0)
  constructor
  · refine ⟨Tree.UpdateNodes [(initLeaf R vars nd s').1], ?_, ?_, ?_⟩
    · unfold BalancedTreeCreator.create
      simp only [lt_self_iff_false, false_and, if_false, usub64_one_one,
        Nat.min_zero, hpr, hleafB, if_true]
    · rw [hup]
      rfl
    · rw [hup]
      intro x hx
      rcases List.mem_singleton.mp hx with rfl
      rfl
  · refine ⟨Tree.UpdateNodes [(initLeaf R vars nd s').1], ?_, ?_, ?_⟩
    · unfold ProbabilisticTreeCreator.create
      rw [if_neg (show ¬ (1 : Nat) = 0 from by norm_num)]
      simp only [lt_self_iff_false, false_and, if_false, usub64_one_one,
        Nat.min_zero, hpr, hleafB, if_true]
    · rw [hup]
      rfl
    · rw [hup]
      intro x hx
      rcases List.mem_singleton.mp hx with rfl
      rfl

theorem leafOnlyRand_sound : SampleSound leafOnlyRand := by
  intro lo hi s nd s' h
  simp only [leafOnlyRand] at h
  by_cases hlo : lo = 0
  · rw [if_pos hlo] at h
    have h2 := Option.some.inj h
    have h3 : ({ arity := 0 } : PNode) = nd := congrArg Prod.fst h2
    constructor
    · omega
    · rw [← h3]
      exact Nat.zero_le hi
  · rw [if_neg hlo] at h
    exact absurd h (by simp)

theorem leafOnlyRand_complete : SampleComplete leafOnlyPset leafOnlyRand := by
  intro lo hi s hex
  rcases hex with ⟨p, hp, _, hint⟩
  have hp0 : p = ⟨0, 1, true, 0, 0⟩ := by
    simpa [leafOnlyPset] using hp
  subst hp0
  have hlo : lo = 0 := by
    simp at hint
    omega
  simp [leafOnlyRand, hlo]

/-- C6 witness: both creators at `target_length = 1` with the concrete
single-leaf primitive set and sampler. -/
theorem creators_single_leaf_witness :
    (∃ t, BalancedTreeCreator.create leafOnlyRand [] leafOnlyPset () 1 = some t ∧
      t.length = 1 ∧ ∀ nd ∈ t, nd.length = 0) ∧
    (∃ t, ProbabilisticTreeCreator.create leafOnlyRand [] leafOnlyPset () 1 =
        some t ∧
      t.length = 1 ∧ ∀ nd ∈ t, nd.length = 0) :=
  creators_single_leaf leafOnlyRand leafOnlyPset [] ()
    leafOnlyRand_sound leafOnlyRand_complete
    ⟨⟨0, 1, true, 0, 0⟩, by simp [leafOnlyPset], rfl, rfl⟩

end Operon

